import Mathlib

/-!
# cheap-stats: a shallow embedding of `ext/cheap_stats/cheap_stats.c`

Conventions of the embedding.

* A C array `double* a` together with its length `size_t n` is a `List K`; the length
  argument of the C functions is the length of the list.  The record `cheap_stats_t`
  keeps the field `n` of the C record; the functions that are called with
  `ptr->a1, ptr->n` take the list `a1`, whose length is `n` in every context that
  `cheap_stats_new` stores (`cheap_stats_new_lengths`).
* `double` is an arbitrary linearly ordered field `K` (exact arithmetic, no NaN).  The
  definitions are executable at `K = ℚ`.
* The functions of `<math.h>` that the library calls (`sqrt`, `pow`, `exp`) are not part
  of the repository; they are passed in as a record `Libm K`.
* In the sorter and the search, `int` and `size_t` variables are mathematical integers
  (natural numbers where the source keeps them non-negative).  The machine arithmetic of
  the gap variable `h` of `combsort11` (a 32-bit two's complement `int` against a 64-bit
  `size_t`) is modelled apart, by `int32`, `gapStep32`, `gap32` and `passBound64`; the
  two agree as long as `10 * n` fits an `int` (`combsortTrace_gap32`), and part at
  `n = 214748365`.
* An automatic variable that is read before it is assigned (`f` in `combsort11`, `s` in
  `calc_moment` and `calc_central_moment`) is an explicit argument holding the
  indeterminate value found on the stack.
* `while` loops are recursion on a fuel counter; a result of `none` stands for "no result"
  (the fuel ran out, or an array was read outside `0 .. n-1`).
* A nullable pointer argument is an `Option` (input arrays and contexts) or a `Bool`
  (output slots: `true` when the pointer is not `NULL`).  The value written through an
  output pointer is returned as an `Option`: `none` when nothing was written.
-/

namespace CheapStats

/-- The three functions of the C math library used by `cheap_stats.c`. -/
structure Libm (K : Type) where
  /-- The function `sqrt` of `math.h`. -/
  sqrt : K → K
  /-- The function `pow` of `math.h`. -/
  pow : K → K → K
  /-- The function `exp` of `math.h`. -/
  exp : K → K

/-- The record `cheap_stats_t` of `cheap_stats.h`. -/
structure cheap_stats_t (K : Type) where
  /-- The copy of the samples in the order supplied. -/
  a0 : List K
  /-- The copy of the samples processed by `combsort11`. -/
  a1 : List K
  /-- The number of samples. -/
  n : Nat
  /-- The sum of the samples. -/
  total : K
  /-- The quotient `total / n`. -/
  mean : K
  /-- The entry `a1[0]`. -/
  min : K
  /-- The entry `a1[n - 1]`. -/
  max : K
  /-- The entry `a1[n / 4]`. -/
  q1 : K
  /-- The entry `a1[(3 * n) / 4]`. -/
  q3 : K
  /-- The entry `a1[n / 2]`. -/
  median : K
  /-- The population variance. -/
  variance : K
  /-- The square root of the variance. -/
  std : K

/-- The constant `MIN_SAMPLES`. -/
def MIN_SAMPLES : Nat := 10

/-- The expression `SHRINK(n)`, that is `((n * 10) / 13)`. -/
def SHRINK (n : Nat) : Nat := (n * 10) / 13

/-- Body of the `for` loop of `combsort11` at index `i` with gap `h`, acting on the array
and the flag `f`: `if (a[i] > a[i + h]) { SWAP(a[i], a[i + h]); f = !0; }`.
`SWAP(a, b)` is `t = b; b = a; a = t`.  The loop bound `i < n - h` keeps both indices
inside the array, so the last alternative is never taken. -/
def combStep {α : Type} [LinearOrder α] (h : Nat) (s : List α × Bool) (i : Nat) :
    List α × Bool :=
  match s.1[i]?, s.1[i + h]? with
  | some x, some y => if x > y then ((s.1.set (i + h) x).set i y, true) else s
  | _, _ => s

/-- One pass of `combsort11` with gap `h`:
`for (i = 0; i < (n - h); i++) ...`, started with `f = 0`. -/
def combPass {α : Type} [LinearOrder α] (h : Nat) (a : List α) : List α × Bool :=
  (List.range (a.length - h)).foldl (combStep h) (a, false)

/-- The loop `while (h > 1 || f) { f = 0; h = SHRINK(h); if (h == 9 || h == 10) h = 11;
for ... }` of `combsort11`, from the state `(h, f, a)`. -/
def combsortLoop {α : Type} [LinearOrder α] :
    Nat → Nat → Bool → List α → Option (List α)
  | 0, _, _, _ => none
  | fuel + 1, h, f, a =>
    if h > 1 ∨ f = true then
      let h1 := SHRINK h
      let h2 := if h1 = 9 ∨ h1 = 10 then 11 else h1
      let s := combPass h2 a
      combsortLoop fuel h2 s.2 s.1
    else some a

/-- The function `combsort11(a, n)`.  The flag `f` is not initialised by the source; `f0`
is the value it holds when the loop condition is first evaluated. -/
def combsort11 {α : Type} [LinearOrder α] (f0 : Bool) (a : List α) : Option (List α) :=
  combsortLoop (a.length + 2) a.length f0 a

/-- The loop `while (1) { ret = (l + r) / 2; if (r <= l) break; ... }` of `binsearch`,
from the state `(l, r)`.  The division is the truncating division of C. -/
def binsearchLoop {α : Type} [LinearOrder α] (a : List α) (v : α) :
    Nat → Int → Int → Option Int
  | 0, _, _ => none
  | fuel + 1, l, r =>
    let ret := Int.tdiv (l + r) 2
    if r ≤ l then some ret
    else
      match (if 0 ≤ ret then a[ret.toNat]? else none) with
      | none => none
      | some x =>
        if x < v then binsearchLoop a v fuel (ret + 1) r
        else if x > v then binsearchLoop a v fuel l (ret - 1)
        else some ret

/-- The function `binsearch(a, n, v)`. -/
def binsearch {α : Type} [LinearOrder α] (a : List α) (v : α) : Option Int :=
  binsearchLoop a v (a.length + 1) 0 ((a.length : Int) - 1)

/-- The function `calc_sum(a, n)`. -/
def calc_sum {K : Type} [LinearOrderedField K] (a : List K) : K :=
  a.foldl (fun s x => s + x) 0

/-- The function `calc_variance(a, n, mean)`. -/
def calc_variance {K : Type} [LinearOrderedField K] (a : List K) (mean : K) : K :=
  a.foldl (fun s x => s + (x - mean) * (x - mean)) 0 / (a.length : K)

/-- The function `calc_cdf(a, n, v)`. -/
def calc_cdf {K : Type} [LinearOrderedField K] (a : List K) (v : K) : Option K :=
  match a[a.length - 1]? with
  | none => none
  | some m =>
    if v > m then some (((a.length : Int) : K) / (a.length : K))
    else (binsearch a v).map (fun (idx : Int) => ((idx : Int) : K) / (a.length : K))

/-- The function `calc_moment(a, n, k)`.  The accumulator `s` is not initialised by the
source; `s0` is the value it holds on entry. -/
def calc_moment {K : Type} [LinearOrderedField K] (L : Libm K) (s0 : K) (a : List K)
    (k : K) : K :=
  a.foldl (fun s x => s + L.pow x k) s0 / (a.length : K)

/-- The function `calc_central_moment(a, n, k, mean)`.  The accumulator `s` is not
initialised by the source; `s0` is the value it holds on entry. -/
def calc_central_moment {K : Type} [LinearOrderedField K] (L : Libm K) (s0 : K)
    (a : List K) (k mean : K) : K :=
  a.foldl (fun s x => s + L.pow (x - mean) k) s0 / (a.length : K)

/-- The function `calc_std_moment(a, n, k, mean, std)`. -/
def calc_std_moment {K : Type} [LinearOrderedField K] (L : Libm K) (s0 : K) (a : List K)
    (k mean std : K) : K :=
  calc_central_moment L s0 a k mean / L.pow std k

/-- The function `calc_normal_pdf(a, n, mean, std, total, v)`. -/
def calc_normal_pdf {K : Type} [LinearOrderedField K] (L : Libm K)
    (mean std total v : K) : K :=
  let t := (v - mean) / std
  (L.exp (-(1 / 2) * (t * t)) / (std * (250662827463 / 100000000000))) / total

/-- The function `kernel_gaussian(x)`. -/
def kernel_gaussian {K : Type} [LinearOrderedField K] (L : Libm K) (x : K) : K :=
  L.exp (-(x * x) / 2) / (250662827463 / 100000000000)

/-- The function `calc_kde(a, n, sig, v)`. -/
def calc_kde {K : Type} [LinearOrderedField K] (L : Libm K) (a : List K) (sig v : K) : K :=
  let h := ((9 / 10) * sig) / L.pow (a.length : K) (1 / 5)
  a.foldl (fun s x => s + kernel_gaussian L ((v - x) / h)) 0 / ((a.length : K) * h)

/-- The block of `cheap_stats_new` that fills the context from the raw copy `a0` and the
processed copy `a1` (the assignments to `ptr->a0` ... `ptr->std`). -/
def fill_context {K : Type} [LinearOrderedField K] (L : Libm K) (a0 a1 : List K) :
    Option (cheap_stats_t K) := do
  let n := a0.length
  let total := calc_sum a0
  let mean := total / (n : K)
  let min ← a1[0]?
  let max ← a1[n - 1]?
  let q1 ← a1[n / 4]?
  let q3 ← a1[(3 * n) / 4]?
  let median ← a1[n / 2]?
  let variance := calc_variance a0 mean
  pure
    { a0 := a0, a1 := a1, n := n, total := total, mean := mean, min := min, max := max,
      q1 := q1, q3 := q3, median := median, variance := variance,
      std := L.sqrt variance }

/-- The function `cheap_stats_new(src, n, dst)`.  `src` is `none` for a `NULL` sample
pointer, `dst` tells whether the output slot is not `NULL`, and `m0`, `m1`, `m2` tell
whether the three allocations (`a0`, `a1`, `ptr`) succeed.  The result is the returned
code and the context stored in `*dst`, if one was stored.  An error code is the number of
the source line of the failing check (`DEFAULT_ERROR` is `__LINE__`). -/
def cheap_stats_new {K : Type} [LinearOrderedField K] (L : Libm K) (f0 : Bool)
    (src : Option (List K)) (dst m0 m1 m2 : Bool) :
    Option (Nat × Option (cheap_stats_t K)) :=
  match src with
  | none => some (218, none)
  | some s =>
    if s.length < MIN_SAMPLES then some (223, none)
    else if dst = false then some (228, none)
    else if m0 = false then some (239, none)
    else if m1 = false then some (245, none)
    else if m2 = false then some (251, none)
    else do
      let a1 ← combsort11 f0 s
      let ctx ← fill_context L s a1
      pure (0, some ctx)

/-- The function `cheap_stats_cdf(ptr, v, dst)`. -/
def cheap_stats_cdf {K : Type} [LinearOrderedField K] (ptr : Option (cheap_stats_t K))
    (v : K) (dst : Bool) : Option (Nat × Option K) :=
  match ptr with
  | none => some (336, none)
  | some p =>
    if dst = false then some (341, none)
    else (calc_cdf p.a1 v).map (fun c => (0, some c))

/-- The function `cheap_stats_normal_pdf(ptr, v, dst)`. -/
def cheap_stats_normal_pdf {K : Type} [LinearOrderedField K] (L : Libm K)
    (ptr : Option (cheap_stats_t K)) (v : K) (dst : Bool) : Nat × Option K :=
  match ptr with
  | none => (371, none)
  | some p =>
    if dst = false then (376, none)
    else (0, some (calc_normal_pdf L p.mean p.std p.total v))

/-- The function `cheap_stats_estimated_pdf(ptr, v, dst)`. -/
def cheap_stats_estimated_pdf {K : Type} [LinearOrderedField K] (L : Libm K)
    (ptr : Option (cheap_stats_t K)) (v : K) (dst : Bool) : Nat × Option K :=
  match ptr with
  | none => (407, none)
  | some p =>
    if dst = false then (412, none)
    else
      let sig := p.q3 - p.q1
      let sig := if sig > p.std then p.std else sig
      (0, some (calc_kde L p.a1 sig v))

/-- The function `cheap_stats_moment(ptr, k, dst)`; `s0` is the indeterminate initial
value of the accumulator of `calc_moment`. -/
def cheap_stats_moment {K : Type} [LinearOrderedField K] (L : Libm K) (s0 : K)
    (ptr : Option (cheap_stats_t K)) (k : K) (dst : Bool) : Nat × Option K :=
  match ptr with
  | none => (446, none)
  | some p =>
    if dst = false then (451, none)
    else (0, some (calc_moment L s0 p.a1 k))

/-- The function `cheap_stats_central_moment(ptr, k, dst)`; `s0` is the indeterminate
initial value of the accumulator of `calc_central_moment`. -/
def cheap_stats_central_moment {K : Type} [LinearOrderedField K] (L : Libm K) (s0 : K)
    (ptr : Option (cheap_stats_t K)) (k : K) (dst : Bool) : Nat × Option K :=
  match ptr with
  | none => (481, none)
  | some p =>
    if dst = false then (486, none)
    else (0, some (calc_central_moment L s0 p.a1 k p.mean))

/-- The function `cheap_stats_std_moment(ptr, k, dst)`; `s0` is the indeterminate initial
value of the accumulator of `calc_central_moment`. -/
def cheap_stats_std_moment {K : Type} [LinearOrderedField K] (L : Libm K) (s0 : K)
    (ptr : Option (cheap_stats_t K)) (k : K) (dst : Bool) : Nat × Option K :=
  match ptr with
  | none => (516, none)
  | some p =>
    if dst = false then (521, none)
    else (0, some (calc_std_moment L s0 p.a1 k p.mean p.std))

/-- The function `cheap_stats_skewness(ptr, dst)`; `s0` is the indeterminate initial value
of the accumulator of `calc_central_moment`. -/
def cheap_stats_skewness {K : Type} [LinearOrderedField K] (L : Libm K) (s0 : K)
    (ptr : Option (cheap_stats_t K)) (dst : Bool) : Nat × Option K :=
  match ptr with
  | none => (551, none)
  | some p =>
    if dst = false then (556, none)
    else (0, some (calc_std_moment L s0 p.a1 3 p.mean p.std))

/-- The function `cheap_stats_pearson_skewness(ptr, dst)`. -/
def cheap_stats_pearson_skewness {K : Type} [LinearOrderedField K]
    (ptr : Option (cheap_stats_t K)) (dst : Bool) : Nat × Option K :=
  match ptr with
  | none => (586, none)
  | some p =>
    if dst = false then (591, none)
    else (0, some ((3 * (p.mean - p.median)) / (p.std + 1 / 10 ^ 15)))

/-- The sample set `[1, 2, ..., 10]` of the worked example. -/
def oneToTen (K : Type) [LinearOrderedField K] : List K := [1, 2, 3, 4, 5, 6, 7, 8, 9, 10]

/-- A sample set of ten distinct values that `combsort11` leaves out of order. -/
def unsortedTen (K : Type) [LinearOrderedField K] : List K := [1, 2, 3, 6, 4, 7, 8, 9, 10, 5]

/-- The number of entries of `a` that are strictly below `v`. -/
def countBelow {α : Type} [LinearOrder α] (a : List α) (v : α) : Nat :=
  a.countP (fun x => decide (x < v))

/-- The number of entries of `a` that are at or below `v`. -/
def countAtOrBelow {α : Type} [LinearOrder α] (a : List α) (v : α) : Nat :=
  a.countP (fun x => decide (x ≤ v))

/-- The array is in ascending order: `a[i] <= a[i + 1]` for every `0 <= i < n - 1`. -/
def nonDecreasing {α : Type} [LinearOrder α] (a : List α) : Prop :=
  ∀ i : Nat, ∀ h : i + 1 < a.length, a[i] ≤ a[i + 1]

/-- The loop of `combsort11` with a record of its passes: the recursion of `combsortLoop`,
returning in addition, for every pass in order, the gap `h` that the pass used and the
value of the flag `f` when the pass ended. -/
def combsortTrace {α : Type} [LinearOrder α] :
    Nat → Nat → Bool → List α → Option (List (Nat × Bool) × List α)
  | 0, _, _, _ => none
  | fuel + 1, h, f, a =>
    if h > 1 ∨ f = true then
      let h1 := SHRINK h
      let h2 := if h1 = 9 ∨ h1 = 10 then 11 else h1
      let s := combPass h2 a
      (combsortTrace fuel h2 s.2 s.1).map (fun r => ((h2, s.2) :: r.1, r.2))
    else some ([], a)


/-- The value of an `int` expression whose mathematical value is `x`: the representative
of `x` modulo `2 ^ 32` in `-2 ^ 31 .. 2 ^ 31 - 1` (32-bit two's complement). -/
def int32 (x : Int) : Int := (x + 2147483648) % 4294967296 - 2147483648

/-- The update of the gap in `combsort11` on the machine type, `h` being an `int`:
`h = SHRINK(h); if (h == 9 || h == 10) h = 11;`, where `SHRINK(h)` is `((h * 10) / 13)`
with the product taken in `int` and the truncating division of C. -/
def gapStep32 (h : Int) : Int :=
  let h1 := Int.tdiv (int32 (h * 10)) 13
  if h1 = 9 ∨ h1 = 10 then 11 else h1

/-- The value of the `int` variable `h` during pass number `k` (counted from 0) of a loop
`while (...) { h = SHRINK(h); if (h == 9 || h == 10) h = 11; for ... }` that is entered with
the value `h`. -/
def gap32 (h : Int) : Nat → Int
  | 0 => gapStep32 h
  | k + 1 => gap32 (gapStep32 h) k

/-- The bound `(n - h)` of the `for` loop of `combsort11`: `n` is a `size_t`, so the `int`
value `h` is converted to `size_t` and the difference is taken modulo `2 ^ 64`. -/
def passBound64 (n : Nat) (h : Int) : Int := ((n : Int) - h) % 18446744073709551616



/-! ## The sorter -/

theorem SHRINK_lt (h : Nat) (hh : 1 ≤ h) :
    (if SHRINK h = 9 ∨ SHRINK h = 10 then 11 else SHRINK h) < h := by
  unfold SHRINK
  split <;> omega

theorem swap_perm {α : Type} [DecidableEq α] (a : List α) (i j : Nat) (x y : α)
    (hi : a[i]? = some x) (hj : a[j]? = some y) : ((a.set j x).set i y).Perm a := by
  obtain ⟨hil, rfl⟩ := List.getElem?_eq_some_iff.mp hi
  obtain ⟨hjl, rfl⟩ := List.getElem?_eq_some_iff.mp hj
  rw [List.perm_iff_count]
  intro b
  rw [List.count_set _ _ _ _ (by simpa using hil), List.count_set _ _ _ _ hjl]
  by_cases hij : i = j
  · subst hij
    by_cases e1 : a[i] = b
    · subst e1
      simp
    · simp [e1]
  · rw [List.getElem_set_ne (Ne.symm hij)]
    have h1 : 0 < List.count a[i] a := List.count_pos_iff.mpr (List.getElem_mem hil)
    have h2 : 0 < List.count a[j] a := List.count_pos_iff.mpr (List.getElem_mem hjl)
    by_cases e1 : a[i] = b <;> by_cases e2 : a[j] = b <;> simp [e1, e2]
    · subst e1
      omega
    · subst e2
      omega

theorem combStep_perm {α : Type} [LinearOrder α] (h : Nat) (s : List α × Bool) (i : Nat) :
    (combStep h s i).1.Perm s.1 := by
  unfold combStep
  split
  · rename_i x y hx hy
    split
    · exact swap_perm s.1 i (i + h) x y hx hy
    · exact List.Perm.refl _
  · exact List.Perm.refl _

theorem foldl_combStep_perm {α : Type} [LinearOrder α] (h : Nat) (is : List Nat)
    (s : List α × Bool) : (is.foldl (combStep h) s).1.Perm s.1 := by
  induction is generalizing s with
  | nil => exact List.Perm.refl _
  | cons i is ih => exact (ih _).trans (combStep_perm h s i)

theorem combPass_perm {α : Type} [LinearOrder α] (h : Nat) (a : List α) :
    (combPass h a).1.Perm a :=
  foldl_combStep_perm h _ (a, false)

theorem combStep_zero {α : Type} [LinearOrder α] (s : List α × Bool) (i : Nat) :
    combStep 0 s i = s := by
  unfold combStep
  split
  · rename_i x y hx hy
    have : x = y := by simpa [hx] using hy
    subst this
    simp
  · rfl

theorem combPass_zero {α : Type} [LinearOrder α] (a : List α) : combPass 0 a = (a, false) := by
  unfold combPass
  generalize List.range (a.length - 0) = is
  induction is with
  | nil => rfl
  | cons i is ih => simpa [List.foldl, combStep_zero] using ih

theorem combsortLoop_perm {α : Type} [LinearOrder α] (fuel : Nat) :
    ∀ (h : Nat) (f : Bool) (a : List α), h + 2 ≤ fuel →
      ∃ r, combsortLoop fuel h f a = some r ∧ r.Perm a := by
  induction fuel with
  | zero => intro h f a hf; omega
  | succ fuel ih =>
    intro h f a hf
    unfold combsortLoop
    split
    · rename_i hc
      by_cases h0 : h = 0
      · subst h0
        have hs : (if SHRINK 0 = 9 ∨ SHRINK 0 = 10 then 11 else SHRINK 0) = 0 := by decide
        simp only [hs, combPass_zero]
        refine ⟨a, ?_, List.Perm.refl _⟩
        cases fuel with
        | zero => omega
        | succ fuel => simp [combsortLoop]
      · have hlt := SHRINK_lt h (by omega)
        obtain ⟨r, hr, hp⟩ := ih (if SHRINK h = 9 ∨ SHRINK h = 10 then 11 else SHRINK h)
          (combPass _ a).2 (combPass _ a).1 (by omega)
        exact ⟨r, hr, hp.trans (combPass_perm _ a)⟩
    · exact ⟨a, rfl, List.Perm.refl _⟩

theorem combsort11_perm {α : Type} [LinearOrder α] (f0 : Bool) (a : List α) :
    ∃ r, combsort11 f0 a = some r ∧ r.Perm a :=
  combsortLoop_perm _ _ _ _ (le_refl _)


theorem combStep_map {α β : Type} [LinearOrder α] [LinearOrder β] (φ : α → β)
    (hφ : StrictMono φ) (h : Nat) (s : List α × Bool) (i : Nat) :
    combStep h (s.1.map φ, s.2) i = ((combStep h s i).1.map φ, (combStep h s i).2) := by
  unfold combStep
  simp only [List.getElem?_map]
  cases hx : s.1[i]? <;> cases hy : s.1[i + h]? <;> simp
  rename_i x y
  by_cases hxy : y < x
  · simp [hxy, hφ hxy, List.map_set]
  · simp [hxy, hφ.lt_iff_lt]

theorem foldl_combStep_map {α β : Type} [LinearOrder α] [LinearOrder β] (φ : α → β)
    (hφ : StrictMono φ) (h : Nat) (is : List Nat) (s : List α × Bool) :
    is.foldl (combStep h) (s.1.map φ, s.2) =
      ((is.foldl (combStep h) s).1.map φ, (is.foldl (combStep h) s).2) := by
  induction is generalizing s with
  | nil => rfl
  | cons i is ih =>
    simp only [List.foldl]
    rw [combStep_map φ hφ, ih]

theorem combPass_map {α β : Type} [LinearOrder α] [LinearOrder β] (φ : α → β)
    (hφ : StrictMono φ) (h : Nat) (a : List α) :
    combPass h (a.map φ) = ((combPass h a).1.map φ, (combPass h a).2) := by
  unfold combPass
  rw [List.length_map]
  exact foldl_combStep_map φ hφ h _ (a, false)

theorem combsortLoop_map {α β : Type} [LinearOrder α] [LinearOrder β] (φ : α → β)
    (hφ : StrictMono φ) (fuel : Nat) :
    ∀ (h : Nat) (f : Bool) (a : List α),
      combsortLoop fuel h f (a.map φ) = (combsortLoop fuel h f a).map (List.map φ) := by
  induction fuel with
  | zero => intro h f a; rfl
  | succ fuel ih =>
    intro h f a
    unfold combsortLoop
    split
    · simp only [combPass_map φ hφ]
      exact ih _ _ _
    · rfl

theorem combsort11_map {α β : Type} [LinearOrder α] [LinearOrder β] (φ : α → β)
    (hφ : StrictMono φ) (f0 : Bool) (a : List α) :
    combsort11 f0 (a.map φ) = (combsort11 f0 a).map (List.map φ) := by
  unfold combsort11
  rw [List.length_map]
  exact combsortLoop_map φ hφ _ _ _ _

theorem combsort11_unsortedTen (K : Type) [LinearOrderedField K] (f0 : Bool) :
    combsort11 f0 (unsortedTen K) = some [1, 2, 3, 4, 6, 5, 7, 8, 9, 10] := by
  have e : unsortedTen K = ([1, 2, 3, 6, 4, 7, 8, 9, 10, 5] : List Nat).map Nat.cast := by
    simp [unsortedTen]
  have d : ∀ f : Bool, combsort11 f ([1, 2, 3, 6, 4, 7, 8, 9, 10, 5] : List Nat)
      = some [1, 2, 3, 4, 6, 5, 7, 8, 9, 10] := by decide
  rw [e, combsort11_map Nat.cast Nat.strictMono_cast, d]
  simp

theorem nonDecreasing_iff_pairwise {α : Type} [LinearOrder α] (a : List α) :
    nonDecreasing a ↔ a.Pairwise (· ≤ ·) := by
  rw [← List.chain'_iff_pairwise, List.chain'_iff_get]
  unfold nonDecreasing
  constructor
  · intro h i hi
    exact h i (by omega)
  · intro h i hi
    exact h i (by omega)

theorem combStep_sorted {α : Type} [LinearOrder α] (h : Nat) (a : List α) (f : Bool)
    (i : Nat) (hs : a.Pairwise (· ≤ ·)) : combStep h (a, f) i = (a, f) := by
  unfold combStep
  split
  · rename_i x y hx hy
    obtain ⟨hil, rfl⟩ := List.getElem?_eq_some_iff.mp hx
    obtain ⟨hjl, rfl⟩ := List.getElem?_eq_some_iff.mp hy
    have hle : a[i] ≤ a[i + h] := by
      rcases Nat.eq_zero_or_pos h with h0 | hpos
      · subst h0
        exact le_refl _
      · exact (List.pairwise_iff_getElem.mp hs) i (i + h) hil hjl (by omega)
    simp [not_lt.mpr hle]
  · rfl

theorem combPass_sorted {α : Type} [LinearOrder α] (h : Nat) (a : List α)
    (hs : a.Pairwise (· ≤ ·)) : combPass h a = (a, false) := by
  unfold combPass
  generalize List.range (a.length - h) = is
  induction is with
  | nil => rfl
  | cons i is ih => simpa [List.foldl, combStep_sorted h a false i hs] using ih

theorem combsortLoop_sorted {α : Type} [LinearOrder α] (fuel : Nat) :
    ∀ (h : Nat) (f : Bool) (a : List α), h + 2 ≤ fuel → a.Pairwise (· ≤ ·) →
      combsortLoop fuel h f a = some a := by
  induction fuel with
  | zero => intro h f a hf; omega
  | succ fuel ih =>
    intro h f a hf hs
    unfold combsortLoop
    split
    · simp only [combPass_sorted _ a hs]
      by_cases h0 : h = 0
      · subst h0
        have hz : (if SHRINK 0 = 9 ∨ SHRINK 0 = 10 then 11 else SHRINK 0) = 0 := by decide
        rw [hz]
        cases fuel with
        | zero => omega
        | succ fuel => simp [combsortLoop]
      · have hlt := SHRINK_lt h (by omega)
        exact ih (if SHRINK h = 9 ∨ SHRINK h = 10 then 11 else SHRINK h) false a (by omega) hs
    · rfl

theorem combsort11_sorted {α : Type} [LinearOrder α] (f0 : Bool) (a : List α)
    (hs : a.Pairwise (· ≤ ·)) : combsort11 f0 a = some a :=
  combsortLoop_sorted _ _ _ _ (le_refl _) hs


/-! ## Construction of the context -/

theorem fill_context_some {K : Type} [LinearOrderedField K] (L : Libm K) (a0 a1 : List K)
    (hlen : a1.length = a0.length) (hn : 0 < a0.length) :
    ∃ ctx, fill_context L a0 a1 = some ctx ∧ ctx.a0 = a0 ∧ ctx.a1 = a1 ∧
      ctx.n = a0.length ∧ ctx.total = calc_sum a0 ∧
      ctx.mean = calc_sum a0 / (a0.length : K) ∧
      a1[0]? = some ctx.min ∧ a1[a0.length - 1]? = some ctx.max ∧
      a1[a0.length / 4]? = some ctx.q1 ∧ a1[(3 * a0.length) / 4]? = some ctx.q3 ∧
      a1[a0.length / 2]? = some ctx.median ∧
      ctx.variance = calc_variance a0 (calc_sum a0 / (a0.length : K)) ∧
      ctx.std = L.sqrt ctx.variance := by
  have b0 : 0 < a1.length := by omega
  have b1 : a0.length - 1 < a1.length := by omega
  have b2 : a0.length / 4 < a1.length := by omega
  have b3 : (3 * a0.length) / 4 < a1.length := by omega
  have b4 : a0.length / 2 < a1.length := by omega
  have h0 : a1[0]? = some a1[0] := List.getElem?_eq_getElem _
  have h1 : a1[a0.length - 1]? = some a1[a0.length - 1] := List.getElem?_eq_getElem _
  have h2 : a1[a0.length / 4]? = some a1[a0.length / 4] := List.getElem?_eq_getElem _
  have h3 : a1[(3 * a0.length) / 4]? = some a1[(3 * a0.length) / 4] :=
    List.getElem?_eq_getElem _
  have h4 : a1[a0.length / 2]? = some a1[a0.length / 2] := List.getElem?_eq_getElem _
  refine ⟨{ a0 := a0, a1 := a1, n := a0.length, total := calc_sum a0,
            mean := calc_sum a0 / (a0.length : K), min := a1[0],
            max := a1[a0.length - 1], q1 := a1[a0.length / 4],
            q3 := a1[(3 * a0.length) / 4], median := a1[a0.length / 2],
            variance := calc_variance a0 (calc_sum a0 / (a0.length : K)),
            std := L.sqrt (calc_variance a0 (calc_sum a0 / (a0.length : K))) },
    ?_, rfl, rfl, rfl, rfl, rfl, h0, h1, h2, h3, h4, rfl, rfl⟩
  simp only [fill_context, h0, h1, h2, h3, h4, Option.bind_eq_bind, Option.some_bind,
    Option.pure_def]

theorem cheap_stats_new_some {K : Type} [LinearOrderedField K] (L : Libm K) (f0 : Bool)
    (s : List K) (hn : 10 ≤ s.length) :
    ∃ a1 ctx, combsort11 f0 s = some a1 ∧ a1.Perm s ∧ fill_context L s a1 = some ctx ∧
      cheap_stats_new L f0 (some s) true true true true = some (0, some ctx) := by
  obtain ⟨a1, h1, hp⟩ := combsort11_perm f0 s
  obtain ⟨ctx, hc, -⟩ := fill_context_some L s a1 hp.length_eq (by omega)
  refine ⟨a1, ctx, h1, hp, hc, ?_⟩
  have : ¬ s.length < MIN_SAMPLES := by unfold MIN_SAMPLES; omega
  simp [cheap_stats_new, this, h1, hc]

theorem cheap_stats_new_facts {K : Type} [LinearOrderedField K] (L : Libm K) (f0 : Bool)
    (s : List K) (hn : 10 ≤ s.length) :
    ∃ ctx, cheap_stats_new L f0 (some s) true true true true = some (0, some ctx) ∧
      combsort11 f0 s = some ctx.a1 ∧ ctx.a1.Perm s ∧ ctx.a0 = s ∧ ctx.n = s.length ∧
      ctx.total = calc_sum s ∧ ctx.mean = calc_sum s / (s.length : K) ∧
      ctx.a1[0]? = some ctx.min ∧ ctx.a1[s.length - 1]? = some ctx.max ∧
      ctx.a1[s.length / 4]? = some ctx.q1 ∧ ctx.a1[(3 * s.length) / 4]? = some ctx.q3 ∧
      ctx.a1[s.length / 2]? = some ctx.median ∧
      ctx.variance = calc_variance s (calc_sum s / (s.length : K)) ∧
      ctx.std = L.sqrt ctx.variance := by
  obtain ⟨a1, ctx, h1, hp, hc, hnew⟩ := cheap_stats_new_some L f0 s hn
  obtain ⟨c, hc', e0, e1, e2, e3, e4, e5, e6, e7, e8, e9, e10, e11⟩ :=
    fill_context_some L s a1 hp.length_eq (by omega)
  have : c = ctx := by
    rw [hc] at hc'
    exact (Option.some.inj hc').symm
  subst this
  subst e1
  exact ⟨c, hnew, h1, hp, e0, e2, e3, e4, e5, e6, e7, e8, e9, e10, e11⟩


/-! ## Claims about construction -/

/-- C1 (code defect, evaluated at a failing input): on the ten distinct samples
`[1, 2, 3, 6, 4, 7, 8, 9, 10, 5]` the function `cheap_stats_new` succeeds and stores the
view `a1 = [1, 2, 3, 4, 6, 5, 7, 8, 9, 10]`, which is not non-decreasing
(`a1[4] = 6 > 5 = a1[5]`): after the pass with gap 1 has swapped, `SHRINK` takes the gap to
0, the pass with gap 0 swaps nothing and the loop stops. -/
theorem combsort11_leaves_unsorted (K : Type) [LinearOrderedField K] (L : Libm K)
    (f0 : Bool) :
    ∃ ctx, cheap_stats_new L f0 (some (unsortedTen K)) true true true true
        = some (0, some ctx) ∧
      ctx.a1 = [1, 2, 3, 4, 6, 5, 7, 8, 9, 10] ∧ ¬ nonDecreasing ctx.a1 := by
  obtain ⟨ctx, hnew, hsort, -⟩ :=
    cheap_stats_new_facts L f0 (unsortedTen K) (by simp [unsortedTen])
  have ha : ctx.a1 = [1, 2, 3, 4, 6, 5, 7, 8, 9, 10] := by
    rw [combsort11_unsortedTen K f0] at hsort
    exact (Option.some.inj hsort).symm
  refine ⟨ctx, hnew, ha, ?_⟩
  rw [ha]
  intro h
  have h45 := h 4 (by simp)
  norm_num at h45

/-- C2: for every array `s` of `n >= 10` samples, `cheap_stats_new` succeeds and stores a
context whose raw copy `a0` is `s` itself (same values, same order) and whose processed
view `a1` is a permutation of `s` (same multiset) of the same length `n = ctx.n`. -/
theorem cheap_stats_new_raw_and_perm {K : Type} [LinearOrderedField K] (L : Libm K)
    (f0 : Bool) (s : List K) (hn : 10 ≤ s.length) :
    ∃ ctx, cheap_stats_new L f0 (some s) true true true true = some (0, some ctx) ∧
      ctx.a0 = s ∧ ctx.a1.Perm s ∧ ctx.a1.length = s.length ∧
      ctx.a0.length = s.length ∧ ctx.n = s.length := by
  obtain ⟨ctx, hnew, -, hp, h0, hcount, -⟩ := cheap_stats_new_facts L f0 s hn
  exact ⟨ctx, hnew, h0, hp, hp.length_eq, by rw [h0], hcount⟩

/-- Witness of C2 at the samples `[1, 2, 3, 6, 4, 7, 8, 9, 10, 5]` over the reals. -/
theorem cheap_stats_new_raw_and_perm_witness :
    10 ≤ (unsortedTen ℝ).length ∧
    ∃ ctx, cheap_stats_new (Libm.mk Real.sqrt (fun x y => x ^ y) Real.exp) false
        (some (unsortedTen ℝ)) true true true true = some (0, some ctx) ∧
      ctx.a0 = unsortedTen ℝ ∧ ctx.a1.Perm (unsortedTen ℝ) ∧
      ctx.a1.length = (unsortedTen ℝ).length ∧
      ctx.a0.length = (unsortedTen ℝ).length ∧ ctx.n = (unsortedTen ℝ).length :=
  ⟨by simp [unsortedTen],
    cheap_stats_new_raw_and_perm _ false (unsortedTen ℝ) (by simp [unsortedTen])⟩

theorem oneToTen_pairwise (K : Type) [LinearOrderedField K] :
    (oneToTen K).Pairwise (· ≤ ·) := by
  unfold oneToTen
  simp only [List.pairwise_cons, List.mem_cons, List.mem_singleton, forall_eq_or_imp,
    forall_eq, List.not_mem_nil, IsEmpty.forall_iff, implies_true, List.Pairwise.nil,
    and_true]
  norm_num

theorem cheap_stats_new_oneToTen (K : Type) [LinearOrderedField K] (L : Libm K)
    (f0 : Bool) :
    ∃ ctx, cheap_stats_new L f0 (some (oneToTen K)) true true true true
        = some (0, some ctx) ∧
      ctx.a0 = oneToTen K ∧ ctx.a1 = oneToTen K ∧ ctx.n = 10 ∧ ctx.total = 55 ∧
      ctx.mean = 11 / 2 ∧ ctx.min = 1 ∧ ctx.max = 10 ∧ ctx.q1 = 3 ∧ ctx.q3 = 8 ∧
      ctx.median = 6 ∧ ctx.variance = 33 / 4 ∧ ctx.std = L.sqrt (33 / 4) := by
  obtain ⟨ctx, hnew, hsort, -, h0, hcount, ht, hm, hmin, hmax, hq1, hq3, hmed, hv, hs⟩ :=
    cheap_stats_new_facts L f0 (oneToTen K) (by simp [oneToTen])
  have ha : ctx.a1 = oneToTen K := by
    rw [combsort11_sorted f0 _ (oneToTen_pairwise K)] at hsort
    exact (Option.some.inj hsort).symm
  have hsum : calc_sum (oneToTen K) = 55 := by
    norm_num [calc_sum, oneToTen]
  have hvar : calc_variance (oneToTen K) (55 / 10) = 33 / 4 := by
    norm_num [calc_variance, oneToTen]
  have hl : (oneToTen K).length = 10 := by simp [oneToTen]
  rw [ha] at hmin hmax hq1 hq3 hmed
  rw [hl] at hcount hm hmax hq1 hq3 hmed hv
  rw [hsum] at ht hm hv
  simp only [Nat.cast_ofNat] at hm hv
  rw [hvar] at hv
  simp only [oneToTen] at hmin hmax hq1 hq3 hmed
  norm_num at hmin hmax hq1 hq3 hmed hm
  refine ⟨ctx, hnew, h0, ha, hcount, ht, hm, hmin.symm, hmax.symm, hq1.symm, hq3.symm,
    hmed.symm, hv, ?_⟩
  rw [hs, hv]


/-- C3: for the samples `[1, 2, ..., 10]`, in exact arithmetic, `cheap_stats_new` succeeds
and stores `total = 55`, `mean = 5.5`, `min = 1`, `max = 10`, `median = a1[5] = 6`,
`q1 = a1[2] = 3`, `q3 = a1[7] = 8`, `variance = 8.25`, and `std * std = 8.25` when `sqrt`
is an exact square root. -/
theorem cheap_stats_new_example {K : Type} [LinearOrderedField K] (L : Libm K) (f0 : Bool)
    (hsqrt : ∀ x : K, 0 ≤ x → L.sqrt x * L.sqrt x = x) :
    ∃ ctx, cheap_stats_new L f0 (some (oneToTen K)) true true true true
        = some (0, some ctx) ∧
      ctx.total = 55 ∧ ctx.mean = 11 / 2 ∧ ctx.min = 1 ∧ ctx.max = 10 ∧
      ctx.median = 6 ∧ ctx.a1[5]? = some 6 ∧ ctx.q1 = 3 ∧ ctx.a1[2]? = some 3 ∧
      ctx.q3 = 8 ∧ ctx.a1[7]? = some 8 ∧ ctx.variance = 33 / 4 ∧
      ctx.std * ctx.std = 33 / 4 := by
  obtain ⟨ctx, hnew, -, ha, -, ht, hm, hmin, hmax, hq1, hq3, hmed, hv, hs⟩ :=
    cheap_stats_new_oneToTen K L f0
  refine ⟨ctx, hnew, ht, hm, hmin, hmax, hmed, ?_, hq1, ?_, hq3, ?_, hv, ?_⟩
  · rw [ha]; rfl
  · rw [ha]; rfl
  · rw [ha]; rfl
  · rw [hs]
    exact hsqrt _ (by norm_num)

/-- Witness of C3 over the reals, with the real square root, power and exponential. -/
theorem cheap_stats_new_example_witness :
    (∀ x : ℝ, 0 ≤ x → Real.sqrt x * Real.sqrt x = x) ∧
    ∃ ctx, cheap_stats_new (Libm.mk Real.sqrt (fun x y => x ^ y) Real.exp) false
        (some (oneToTen ℝ)) true true true true = some (0, some ctx) ∧
      ctx.total = 55 ∧ ctx.mean = 11 / 2 ∧ ctx.min = 1 ∧ ctx.max = 10 ∧
      ctx.median = 6 ∧ ctx.a1[5]? = some 6 ∧ ctx.q1 = 3 ∧ ctx.a1[2]? = some 3 ∧
      ctx.q3 = 8 ∧ ctx.a1[7]? = some 8 ∧ ctx.variance = 33 / 4 ∧
      ctx.std * ctx.std = 33 / 4 :=
  ⟨fun _ hx => Real.mul_self_sqrt hx,
    cheap_stats_new_example (Libm.mk Real.sqrt (fun x y => x ^ y) Real.exp) false
      (fun _ hx => Real.mul_self_sqrt hx)⟩

/-- C4: with a sample pointer and an output slot that are not `NULL` and allocations that
succeed, `cheap_stats_new` returns 0 exactly when `n >= 10`; for `n >= 10` it stores a
context with `ctx.n = n`; for `n < 10` it returns the non-zero code 223 and stores
nothing. -/
theorem cheap_stats_new_min_samples {K : Type} [LinearOrderedField K] (L : Libm K)
    (f0 : Bool) (s : List K) :
    ((∃ out, cheap_stats_new L f0 (some s) true true true true = some (0, out))
        ↔ 10 ≤ s.length) ∧
    (10 ≤ s.length →
      ∃ ctx, cheap_stats_new L f0 (some s) true true true true = some (0, some ctx) ∧
        ctx.n = s.length) ∧
    (s.length < 10 →
      ∃ code, code ≠ 0 ∧
        cheap_stats_new L f0 (some s) true true true true = some (code, none)) := by
  have hge : 10 ≤ s.length →
      ∃ ctx, cheap_stats_new L f0 (some s) true true true true = some (0, some ctx) ∧
        ctx.n = s.length := by
    intro hn
    obtain ⟨ctx, hnew, -, -, -, hcount, -⟩ := cheap_stats_new_facts L f0 s hn
    exact ⟨ctx, hnew, hcount⟩
  have hlt : s.length < 10 →
      cheap_stats_new L f0 (some s) true true true true = some (223, none) := by
    intro hn
    simp [cheap_stats_new, MIN_SAMPLES, hn]
  refine ⟨⟨?_, ?_⟩, hge, ?_⟩
  · rintro ⟨out, hout⟩
    by_contra hn
    rw [hlt (by omega)] at hout
    simp at hout
  · intro hn
    obtain ⟨ctx, hnew, -⟩ := hge hn
    exact ⟨some ctx, hnew⟩
  · intro hn
    exact ⟨223, by decide, hlt hn⟩

/-- Witness of C4 at the three samples `[1, 2, 3]` over the reals: the call returns the
code 223 and stores nothing. -/
theorem cheap_stats_new_min_samples_witness :
    ([1, 2, 3] : List ℝ).length < 10 ∧
    ∃ code, code ≠ 0 ∧
      cheap_stats_new (Libm.mk Real.sqrt (fun x y => x ^ y) Real.exp) false
        (some ([1, 2, 3] : List ℝ)) true true true true = some (code, none) :=
  ⟨by simp,
    (cheap_stats_new_min_samples (Libm.mk Real.sqrt (fun x y => x ^ y) Real.exp) false
      ([1, 2, 3] : List ℝ)).2.2 (by simp)⟩


/-! ## The rank index -/

theorem tdiv_two_of_nonneg (x : Int) (hx : 0 ≤ x) : Int.tdiv x 2 = x / 2 :=
  Int.tdiv_eq_ediv hx (by decide)

theorem tdiv_two_neg_one : Int.tdiv (-1) 2 = 0 := by decide

/-- Final-state description of `binsearchLoop`: from a state `(l, r)` inside the array the
loop returns the midpoint of a state `(l1, r1)`, reached through states that keep an
invariant `I`, at which either `r1 <= l1` or the midpoint entry equals `v`. -/
theorem binsearchLoop_inv {α : Type} [LinearOrder α] (a : List α) (v : α)
    (I : Int → Int → Prop)
    (hL : ∀ (l r : Int) (x : α), I l r → 0 ≤ l → l < r → r < a.length →
      a[((l + r) / 2).toNat]? = some x → x < v → I ((l + r) / 2 + 1) r)
    (hR : ∀ (l r : Int) (x : α), I l r → 0 ≤ l → l < r → r < a.length →
      a[((l + r) / 2).toNat]? = some x → v < x → I l ((l + r) / 2 - 1))
    (fuel : Nat) :
    ∀ l r : Int, I l r → 0 ≤ l → l ≤ r + 1 → r < a.length → r - l + 2 ≤ fuel →
      ∃ idx l1 r1, binsearchLoop a v fuel l r = some idx ∧ I l1 r1 ∧ 0 ≤ l1 ∧ l ≤ l1 ∧
        r1 ≤ r ∧ l1 ≤ r1 + 1 ∧ idx = Int.tdiv (l1 + r1) 2 ∧
        (r1 ≤ l1 ∨ (l1 < r1 ∧ a[idx.toNat]? = some v)) := by
  induction fuel with
  | zero => intro l r _ h0 h1 _ hf; omega
  | succ fuel ih =>
    intro l r hI h0 h1 hr hf
    unfold binsearchLoop
    by_cases hrl : r ≤ l
    · simp only [hrl, if_true]
      exact ⟨_, l, r, rfl, hI, h0, le_refl _, le_refl _, h1, rfl, Or.inl hrl⟩
    · have hlr : l < r := by omega
      have hmid : Int.tdiv (l + r) 2 = (l + r) / 2 := tdiv_two_of_nonneg _ (by omega)
      have hm0 : 0 ≤ (l + r) / 2 := by omega
      have hmn : ((l + r) / 2).toNat < a.length := by omega
      have hget : a[((l + r) / 2).toNat]? = some a[((l + r) / 2).toNat] :=
        List.getElem?_eq_getElem _
      simp only [hrl, if_false, hmid, hm0, if_true, hget]
      by_cases hlt : a[((l + r) / 2).toNat] < v
      · simp only [hlt, if_true]
        obtain ⟨idx, l1, r1, e, hI1, p0, p1, p2, p3, p4, p5⟩ :=
          ih ((l + r) / 2 + 1) r (hL l r _ hI h0 hlr hr hget hlt) (by omega) (by omega) hr
            (by push_cast at hf ⊢; omega)
        exact ⟨idx, l1, r1, e, hI1, p0, by omega, p2, p3, p4, p5⟩
      · simp only [hlt, if_false]
        by_cases hgt : a[((l + r) / 2).toNat] > v
        · simp only [hgt, if_true]
          obtain ⟨idx, l1, r1, e, hI1, p0, p1, p2, p3, p4, p5⟩ :=
            ih l ((l + r) / 2 - 1) (hR l r _ hI h0 hlr hr hget hgt) h0 (by omega) (by omega)
              (by push_cast at hf ⊢; omega)
          exact ⟨idx, l1, r1, e, hI1, p0, p1, by omega, p3, p4, p5⟩
        · simp only [hgt, if_false]
          have hv : a[((l + r) / 2).toNat] = v :=
            le_antisymm (not_lt.mp hgt) (not_lt.mp hlt)
          refine ⟨_, l, r, rfl, hI, h0, le_refl _, le_refl _, h1, hmid.symm,
            Or.inr ⟨hlr, ?_⟩⟩
          rw [hget, hv]

theorem midpoint_range (l1 r1 : Int) (h0 : 0 ≤ l1) (h1 : l1 ≤ r1 + 1) :
    0 ≤ Int.tdiv (l1 + r1) 2 ∧
      (r1 ≤ l1 → (Int.tdiv (l1 + r1) 2 = r1 ∨ (Int.tdiv (l1 + r1) 2 = 0 ∧ l1 = 0)) ∧
        l1 - 1 ≤ Int.tdiv (l1 + r1) 2 ∧ Int.tdiv (l1 + r1) 2 ≤ l1) ∧
      (l1 < r1 → l1 ≤ Int.tdiv (l1 + r1) 2 ∧ Int.tdiv (l1 + r1) 2 < r1) := by
  by_cases hneg : l1 + r1 < 0
  · have hl : l1 = 0 := by omega
    have hr : r1 = -1 := by omega
    subst hl hr
    decide
  · rw [tdiv_two_of_nonneg _ (by omega)]
    omega

/-- On a non-empty array `binsearch` returns an index of the array, whatever the order
of the entries. -/
theorem binsearch_range {α : Type} [LinearOrder α] (a : List α) (v : α)
    (hn : 0 < a.length) :
    ∃ idx : Int, binsearch a v = some idx ∧ 0 ≤ idx ∧ idx < a.length := by
  obtain ⟨idx, l1, r1, e, -, p0, -, p2, p3, p4, p5⟩ :=
    binsearchLoop_inv a v (fun _ _ => True) (fun _ _ _ _ _ _ _ _ _ => trivial)
      (fun _ _ _ _ _ _ _ _ _ => trivial) (a.length + 1) 0 ((a.length : Int) - 1) trivial
      (le_refl _) (by omega) (by omega) (by push_cast; omega)
  have hm := midpoint_range l1 r1 p0 p3
  rw [← p4] at hm
  refine ⟨idx, e, hm.1, ?_⟩
  rcases p5 with h | ⟨h, -⟩
  · have := (hm.2.1 h).1
    omega
  · have := (hm.2.2 h).2
    omega

/-- When every entry exceeds `v`, `binsearch` only ever moves `r` and returns 0. -/
theorem binsearch_below_all {α : Type} [LinearOrder α] (a : List α) (v : α)
    (hv : ∀ x ∈ a, v < x) : binsearch a v = some 0 := by
  obtain ⟨idx, l1, r1, e, hI, p0, -, p2, p3, p4, p5⟩ :=
    binsearchLoop_inv a v (fun l _ => l = 0)
      (fun l r x _ _ _ _ hx hlt =>
        absurd (hv x (List.getElem?_mem hx)) (not_lt.mpr (le_of_lt hlt)))
      (fun _ _ _ hI _ _ _ _ _ => hI) (a.length + 1) 0 ((a.length : Int) - 1) rfl
      (le_refl _) (by omega) (by omega) (by push_cast; omega)
  have hl : l1 = 0 := hI
  subst hl
  rcases p5 with h | ⟨-, h⟩
  · have hm := midpoint_range 0 r1 p0 p3
    rw [← p4] at hm
    have h2 := (hm.2.1 h).2
    have h0 := hm.1
    have : idx = 0 := by omega
    rw [← this]
    exact e
  · exact absurd (hv v (List.getElem?_mem h)) (lt_irrefl v)


theorem pairwise_index_le {α : Type} [LinearOrder α] (a : List α)
    (hs : a.Pairwise (· ≤ ·)) (i j : Nat) (x y : α) (hij : i ≤ j)
    (hx : a[i]? = some x) (hy : a[j]? = some y) : x ≤ y := by
  obtain ⟨hi, rfl⟩ := List.getElem?_eq_some_iff.mp hx
  obtain ⟨hj, rfl⟩ := List.getElem?_eq_some_iff.mp hy
  rcases Nat.lt_or_eq_of_le hij with h | h
  · exact (List.pairwise_iff_getElem.mp hs) i j hi hj h
  · subst h
    exact le_refl _

/-- On a non-decreasing non-empty array `binsearch` returns an index `k` of the array at
which either `a[k] = v`, or every earlier entry is below `v` and every later entry is
above `v`. -/
theorem binsearch_sorted {α : Type} [LinearOrder α] (a : List α) (v : α)
    (hs : a.Pairwise (· ≤ ·)) (hn : 0 < a.length) :
    ∃ k : Nat, binsearch a v = some (k : Int) ∧ k < a.length ∧
      (a[k]? = some v ∨
        ((∀ (i : Nat) (x : α), i < k → a[i]? = some x → x < v) ∧
         (∀ (i : Nat) (x : α), k < i → a[i]? = some x → v < x))) := by
  have hmono := pairwise_index_le a hs
  obtain ⟨idx, l1, r1, e, hI, p0, -, p2, p3, p4, p5⟩ :=
    binsearchLoop_inv a v
      (fun l r => (∀ (i : Nat) x, (i : Int) < l → a[i]? = some x → x < v) ∧
        (∀ (i : Nat) x, r < (i : Int) → a[i]? = some x → v < x))
      (fun l r x hI h0 hlr hr hx hlt =>
        ⟨fun i y hi hy => lt_of_le_of_lt (hmono i _ y x (by omega) hy hx) hlt, hI.2⟩)
      (fun l r x hI h0 hlr hr hx hgt =>
        ⟨hI.1, fun i y hi hy => lt_of_lt_of_le hgt (hmono _ i x y (by omega) hx hy)⟩)
      (a.length + 1) 0 ((a.length : Int) - 1)
      ⟨fun i x hi _ => by omega, fun i x hi hx => by
        have := (List.getElem?_eq_some_iff.mp hx).1
        omega⟩
      (le_refl _) (by omega) (by omega) (by push_cast; omega)
  have hm := midpoint_range l1 r1 p0 p3
  rw [← p4] at hm
  have hidx : idx = ((idx.toNat : Nat) : Int) := (Int.toNat_of_nonneg hm.1).symm
  refine ⟨idx.toNat, ?_, ?_, ?_⟩
  · rw [← hidx]
    exact e
  · rcases p5 with h | ⟨h, -⟩
    · have := (hm.2.1 h).1
      omega
    · have := (hm.2.2 h).2
      omega
  · rcases p5 with h | ⟨-, h⟩
    · right
      have h1 := (hm.2.1 h).1
      have h2 := (hm.2.1 h).2
      exact ⟨fun i x hi hx => hI.1 i x (by omega) hx,
        fun i x hi hx => hI.2 i x (by omega) hx⟩
    · exact Or.inl h

theorem le_countP_of_prefix {α : Type} (p : α → Bool) (a : List α) (k : Nat)
    (hk : k ≤ a.length) (h : ∀ (i : Nat) (x : α), i < k → a[i]? = some x → p x = true) :
    k ≤ a.countP p := by
  have h1 : (a.take k).countP p = (a.take k).length := by
    rw [List.countP_eq_length]
    intro x hx
    obtain ⟨i, hi⟩ := List.mem_iff_getElem?.mp hx
    have hik : i < k := by
      have := (List.getElem?_eq_some_iff.mp hi).1
      simp at this
      omega
    rw [List.getElem?_take_of_lt hik] at hi
    exact h i x hik hi
  have h2 : a.countP p = (a.take k).countP p + (a.drop k).countP p := by
    rw [← List.countP_append, List.take_append_drop]
  rw [h2, h1, List.length_take, Nat.min_eq_left hk]
  exact Nat.le_add_right _ _

theorem countP_le_of_suffix {α : Type} (p : α → Bool) (a : List α) (k : Nat)
    (h : ∀ (i : Nat) (x : α), k ≤ i → a[i]? = some x → p x = false) :
    a.countP p ≤ k := by
  have h1 : (a.drop k).countP p = 0 := by
    rw [List.countP_eq_zero]
    intro x hx
    obtain ⟨i, hi⟩ := List.mem_iff_getElem?.mp hx
    rw [List.getElem?_drop] at hi
    simp [h (k + i) x (by omega) hi]
  have h2 : a.countP p = (a.take k).countP p + (a.drop k).countP p := by
    rw [← List.countP_append, List.take_append_drop]
  rw [h2, h1, Nat.add_zero]
  exact le_trans (List.countP_le_length p) (by simp)

/-- Rank bounds of `binsearch` on a non-decreasing non-empty array: the returned index
is at most the number of entries `<= v` and at least the number of entries `< v` minus
one. -/
theorem binsearch_sorted_rank {α : Type} [LinearOrder α] (a : List α) (v : α)
    (hs : a.Pairwise (· ≤ ·)) (hn : 0 < a.length) :
    ∃ k : Nat, binsearch a v = some (k : Int) ∧ k < a.length ∧
      countBelow a v ≤ k + 1 ∧ k ≤ countAtOrBelow a v := by
  have hmono := pairwise_index_le a hs
  obtain ⟨k, e, hk, hcase⟩ := binsearch_sorted a v hs hn
  refine ⟨k, e, hk, ?_, ?_⟩
  · apply countP_le_of_suffix
    intro i x hi hx
    have : v ≤ x := by
      rcases hcase with h | h
      · exact hmono k i v x (by omega) h hx
      · exact le_of_lt (h.2 i x (by omega) hx)
    simpa using this
  · apply le_countP_of_prefix _ _ _ (le_of_lt hk)
    intro i x hi hx
    have : x ≤ v := by
      rcases hcase with h | h
      · exact hmono i k x v (le_of_lt hi) hx h
      · exact le_of_lt (h.1 i x hi hx)
    simpa using this


theorem binsearchLoop_map {α β : Type} [LinearOrder α] [LinearOrder β] (φ : α → β)
    (hφ : StrictMono φ) (a : List α) (v : α) (fuel : Nat) :
    ∀ l r : Int, binsearchLoop (a.map φ) (φ v) fuel l r = binsearchLoop a v fuel l r := by
  induction fuel with
  | zero => intro l r; rfl
  | succ fuel ih =>
    intro l r
    unfold binsearchLoop
    simp only [List.getElem?_map]
    by_cases hrl : r ≤ l
    · simp [hrl]
    · simp only [hrl, if_false]
      by_cases h0 : 0 ≤ Int.tdiv (l + r) 2
      · simp only [h0, if_true]
        cases hx : a[(Int.tdiv (l + r) 2).toNat]? with
        | none => rfl
        | some x => simp only [Option.map_some', hφ.lt_iff_lt, gt_iff_lt, ih]
      · simp only [h0, if_false]

theorem binsearch_map {α β : Type} [LinearOrder α] [LinearOrder β] (φ : α → β)
    (hφ : StrictMono φ) (a : List α) (v : α) :
    binsearch (a.map φ) (φ v) = binsearch a v := by
  unfold binsearch
  rw [List.length_map]
  exact binsearchLoop_map φ hφ a v _ _ _

theorem oneToTen_eq_map (K : Type) [LinearOrderedField K] :
    oneToTen K = ([1, 2, 3, 4, 5, 6, 7, 8, 9, 10] : List Nat).map Nat.cast := by
  simp [oneToTen]

theorem binsearch_oneToTen_five (K : Type) [LinearOrderedField K] :
    binsearch (oneToTen K) 5 = some 4 := by
  have d : binsearch ([1, 2, 3, 4, 5, 6, 7, 8, 9, 10] : List Nat) 5 = some 4 := by decide
  have e : (5 : K) = ((5 : Nat) : K) := by simp
  rw [oneToTen_eq_map, e, binsearch_map Nat.cast Nat.strictMono_cast, d]

theorem binsearch_oneToTen_ten (K : Type) [LinearOrderedField K] :
    binsearch (oneToTen K) 10 = some 9 := by
  have d : binsearch ([1, 2, 3, 4, 5, 6, 7, 8, 9, 10] : List Nat) 10 = some 9 := by decide
  have e : (10 : K) = ((10 : Nat) : K) := by simp
  rw [oneToTen_eq_map, e, binsearch_map Nat.cast Nat.strictMono_cast, d]

theorem calc_cdf_oneToTen_five (K : Type) [LinearOrderedField K] :
    calc_cdf (oneToTen K) 5 = some (4 / 10) := by
  have hlast : (oneToTen K)[(oneToTen K).length - 1]? = some 10 := by simp [oneToTen]
  have hl : (oneToTen K).length = 10 := by simp [oneToTen]
  unfold calc_cdf
  rw [hlast, binsearch_oneToTen_five, hl]
  norm_num

theorem calc_cdf_oneToTen_ten (K : Type) [LinearOrderedField K] :
    calc_cdf (oneToTen K) 10 = some (9 / 10) := by
  have hlast : (oneToTen K)[(oneToTen K).length - 1]? = some 10 := by simp [oneToTen]
  have hl : (oneToTen K).length = 10 := by simp [oneToTen]
  unfold calc_cdf
  rw [hlast, binsearch_oneToTen_ten, hl]
  norm_num

theorem countAtOrBelow_oneToTen_five (K : Type) [LinearOrderedField K] :
    countAtOrBelow (oneToTen K) 5 = 5 := by
  norm_num [countAtOrBelow, oneToTen, List.countP_cons]

theorem countAtOrBelow_oneToTen_ten (K : Type) [LinearOrderedField K] :
    countAtOrBelow (oneToTen K) 10 = 10 := by
  norm_num [countAtOrBelow, oneToTen, List.countP_cons]

/-- The value of `calc_cdf` on a non-empty array: the quotient `k / n` for `k = n` when
`v` exceeds the last entry, and for an index `k < n` otherwise. -/
theorem calc_cdf_range {K : Type} [LinearOrderedField K] (a : List K) (v m : K)
    (hm : a[a.length - 1]? = some m) :
    ∃ k : Nat, calc_cdf a v = some ((k : K) / (a.length : K)) ∧
      (m < v → k = a.length) ∧
      (¬ m < v → k < a.length ∧ binsearch a v = some (k : Int)) := by
  have hn : 0 < a.length := by
    have := (List.getElem?_eq_some_iff.mp hm).1
    omega
  unfold calc_cdf
  rw [hm]
  by_cases hv : v > m
  · refine ⟨a.length, ?_, fun _ => rfl, fun h => absurd hv h⟩
    simp [hv]
  · obtain ⟨idx, e, h0, h1⟩ := binsearch_range a v hn
    have hidx : ((idx.toNat : Nat) : Int) = idx := Int.toNat_of_nonneg h0
    have hc : (idx : K) = ((idx.toNat : Nat) : K) := by
      rw [← Int.cast_natCast, hidx]
    refine ⟨idx.toNat, ?_, fun h => absurd h hv, fun _ => ⟨by omega, by rw [hidx]; exact e⟩⟩
    simp only [hv, if_false, e, Option.map_some', hc]


theorem cheap_stats_new_inv {K : Type} [LinearOrderedField K] (L : Libm K) (f0 : Bool)
    (s : List K) (ctx : cheap_stats_t K)
    (h : cheap_stats_new L f0 (some s) true true true true = some (0, some ctx)) :
    10 ≤ s.length ∧ combsort11 f0 s = some ctx.a1 ∧ ctx.a1.Perm s ∧ ctx.a0 = s ∧
      ctx.n = s.length ∧ ctx.mean = calc_sum s / (s.length : K) ∧
      ctx.a1[s.length - 1]? = some ctx.max ∧
      ctx.variance = calc_variance s (calc_sum s / (s.length : K)) ∧
      ctx.std = L.sqrt ctx.variance := by
  have hn : 10 ≤ s.length := by
    by_contra hlt
    have : s.length < MIN_SAMPLES := by unfold MIN_SAMPLES; omega
    simp [cheap_stats_new, this] at h
  obtain ⟨c, hnew, h1, h2, h3, h4, -, h6, -, h8, -, -, -, h12, h13⟩ :=
    cheap_stats_new_facts L f0 s hn
  have : c = ctx := by
    rw [h] at hnew
    simpa using hnew.symm
  subst this
  exact ⟨hn, h1, h2, h3, h4, h6, h8, h12, h13⟩

/-- In a context stored by `cheap_stats_new` both arrays have `n` entries. -/
theorem cheap_stats_new_lengths {K : Type} [LinearOrderedField K] (L : Libm K) (f0 : Bool)
    (s : List K) (ctx : cheap_stats_t K)
    (h : cheap_stats_new L f0 (some s) true true true true = some (0, some ctx)) :
    ctx.a0.length = ctx.n ∧ ctx.a1.length = ctx.n := by
  obtain ⟨-, -, hp, h0, hcount, -⟩ := cheap_stats_new_inv L f0 s ctx h
  exact ⟨by rw [h0, hcount], by rw [hp.length_eq, hcount]⟩

theorem calc_cdf_below_all {K : Type} [LinearOrderedField K] (a : List K) (v : K)
    (hn : 0 < a.length) (hv : ∀ x ∈ a, v < x) : calc_cdf a v = some 0 := by
  have hb : a.length - 1 < a.length := by omega
  have hlast : a[a.length - 1]? = some a[a.length - 1] := List.getElem?_eq_getElem _
  unfold calc_cdf
  rw [hlast]
  have hnot : ¬ v > a[a.length - 1] := not_lt.mpr (le_of_lt (hv _ (List.getElem_mem hb)))
  simp [hnot, binsearch_below_all a v hv]

/-! ## Claims about the empirical CDF -/

/-- C5 (as stated, refuted): for the samples `[1, ..., 10]` over the reals and `v = 5`,
`cheap_stats_cdf` stores `4 / 10` (the index of the entry 5 divided by `n`), while the
fraction of samples at or below 5 is `5 / 10`. -/
theorem cheap_stats_cdf_not_fraction_at_or_below :
    ∃ ctx, cheap_stats_new (Libm.mk Real.sqrt (fun x y => x ^ y) Real.exp) false
        (some (oneToTen ℝ)) true true true true = some (0, some ctx) ∧
      cheap_stats_cdf (some ctx) 5 true = some (0, some (4 / 10)) ∧
      (countAtOrBelow (oneToTen ℝ) 5 : ℝ) / ((oneToTen ℝ).length : ℝ) = 5 / 10 ∧
      cheap_stats_cdf (some ctx) 5 true ≠
        some (0, some ((countAtOrBelow (oneToTen ℝ) 5 : ℝ)
          / ((oneToTen ℝ).length : ℝ))) := by
  obtain ⟨ctx, hnew, -, ha, -⟩ := cheap_stats_new_oneToTen ℝ
    (Libm.mk Real.sqrt (fun x y => x ^ y) Real.exp) false
  have hc : cheap_stats_cdf (some ctx) 5 true = some (0, some (4 / 10)) := by
    simp [cheap_stats_cdf, ha, calc_cdf_oneToTen_five]
  have hf : (countAtOrBelow (oneToTen ℝ) 5 : ℝ) / ((oneToTen ℝ).length : ℝ) = 5 / 10 := by
    rw [countAtOrBelow_oneToTen_five]
    simp [oneToTen]
  refine ⟨ctx, hnew, hc, hf, ?_⟩
  rw [hc, hf]
  norm_num

/-- C5 (amended): for every context built by `cheap_stats_new` whose view `a1` is
non-decreasing and every query value `v`, `cheap_stats_cdf` stores `k / n` for an integer
`0 <= k <= n` that is at most the number of samples `<= v` and at least the number of
samples `< v` minus one; `k = n` when `v` exceeds `max`. -/
theorem cheap_stats_cdf_rank_bounds {K : Type} [LinearOrderedField K] (L : Libm K)
    (f0 : Bool) (s : List K) (ctx : cheap_stats_t K)
    (hctx : cheap_stats_new L f0 (some s) true true true true = some (0, some ctx))
    (hs : nonDecreasing ctx.a1) (v : K) :
    ∃ k : Nat, cheap_stats_cdf (some ctx) v true
        = some (0, some ((k : K) / (s.length : K))) ∧
      k ≤ s.length ∧ countBelow s v ≤ k + 1 ∧ k ≤ countAtOrBelow s v ∧
      (ctx.max < v → k = s.length) := by
  obtain ⟨hn, -, hp, -, -, -, hmax, -⟩ := cheap_stats_new_inv L f0 s ctx hctx
  have hlen : ctx.a1.length = s.length := hp.length_eq
  have hpw := (nonDecreasing_iff_pairwise ctx.a1).mp hs
  have hlt : countBelow ctx.a1 v = countBelow s v := hp.countP_eq _
  have hle : countAtOrBelow ctx.a1 v = countAtOrBelow s v := hp.countP_eq _
  rw [← hlen] at hmax
  obtain ⟨k, hk, hbig, hsmall⟩ := calc_cdf_range ctx.a1 v ctx.max hmax
  rw [hlen] at hk
  refine ⟨k, by simp [cheap_stats_cdf, hk], ?_⟩
  by_cases hv : ctx.max < v
  · have hkn : k = s.length := by rw [hbig hv, hlen]
    have hall : countAtOrBelow ctx.a1 v = ctx.a1.length := by
      unfold countAtOrBelow
      rw [List.countP_eq_length]
      intro x hx
      obtain ⟨i, hi⟩ := List.mem_iff_getElem?.mp hx
      have hil := (List.getElem?_eq_some_iff.mp hi).1
      have := pairwise_index_le ctx.a1 hpw i (ctx.a1.length - 1) x ctx.max (by omega) hi hmax
      simpa using le_of_lt (lt_of_le_of_lt this hv)
    have hb : countBelow s v ≤ s.length := by
      unfold countBelow
      exact List.countP_le_length _
    refine ⟨by omega, by omega, by omega, fun _ => hkn⟩
  · obtain ⟨hkl, hb⟩ := hsmall hv
    obtain ⟨k2, hb2, -, r1, r2⟩ := binsearch_sorted_rank ctx.a1 v hpw (by omega)
    have hkk : k2 = k := by
      rw [hb] at hb2
      exact_mod_cast (Option.some.inj hb2).symm
    subst hkk
    exact ⟨by omega, by omega, by omega, fun h => absurd h hv⟩

/-- Witness of C5 (amended) at the samples `[1, ..., 10]` over the reals and `v = 5`. -/
theorem cheap_stats_cdf_rank_bounds_witness :
    ∃ ctx, cheap_stats_new (Libm.mk Real.sqrt (fun x y => x ^ y) Real.exp) false
        (some (oneToTen ℝ)) true true true true = some (0, some ctx) ∧
      nonDecreasing ctx.a1 ∧
      ∃ k : Nat, cheap_stats_cdf (some ctx) 5 true
          = some (0, some ((k : ℝ) / ((oneToTen ℝ).length : ℝ))) ∧
        k ≤ (oneToTen ℝ).length ∧ countBelow (oneToTen ℝ) 5 ≤ k + 1 ∧
        k ≤ countAtOrBelow (oneToTen ℝ) 5 ∧ (ctx.max < 5 → k = (oneToTen ℝ).length) := by
  obtain ⟨ctx, hnew, -, ha, -⟩ := cheap_stats_new_oneToTen ℝ
    (Libm.mk Real.sqrt (fun x y => x ^ y) Real.exp) false
  have hs : nonDecreasing ctx.a1 := by
    rw [ha]
    exact (nonDecreasing_iff_pairwise _).mpr (oneToTen_pairwise ℝ)
  exact ⟨ctx, hnew, hs, cheap_stats_cdf_rank_bounds _ false (oneToTen ℝ) ctx hnew hs 5⟩


/-- C6 (as stated, refuted): for the samples `[1, ..., 10]` over the reals, `max = 10`
and `cheap_stats_cdf` at `max` stores `9 / 10`, not 1. -/
theorem cdf_at_max_is_nine_tenths :
    ∃ ctx, cheap_stats_new (Libm.mk Real.sqrt (fun x y => x ^ y) Real.exp) false
        (some (oneToTen ℝ)) true true true true = some (0, some ctx) ∧
      ctx.max = 10 ∧ ctx.a1[ctx.n - 1]? = some ctx.max ∧
      cheap_stats_cdf (some ctx) ctx.max true = some (0, some (9 / 10)) ∧
      cheap_stats_cdf (some ctx) ctx.max true ≠ some (0, some 1) := by
  obtain ⟨ctx, hnew, -, ha, hcount, -, -, -, hmax, -⟩ := cheap_stats_new_oneToTen ℝ
    (Libm.mk Real.sqrt (fun x y => x ^ y) Real.exp) false
  have hc : cheap_stats_cdf (some ctx) ctx.max true = some (0, some (9 / 10)) := by
    simp [cheap_stats_cdf, ha, hmax, calc_cdf_oneToTen_ten]
  refine ⟨ctx, hnew, hmax, ?_, hc, ?_⟩
  · rw [ha, hcount, hmax]
    simp [oneToTen]
  · rw [hc]
    norm_num

/-- C6 (amended): for every array of `n >= 10` samples, `cheap_stats_cdf` evaluated at
`max = a1[n - 1]` stores `k / n` for an index `k <= n - 1`, a value strictly below 1; the
value 1 is stored for every query value strictly greater than `max`. -/
theorem cheap_stats_cdf_at_max_lt_one {K : Type} [LinearOrderedField K] (L : Libm K)
    (f0 : Bool) (s : List K) (hn : 10 ≤ s.length) :
    ∃ ctx, ∃ k : Nat,
      cheap_stats_new L f0 (some s) true true true true = some (0, some ctx) ∧
      ctx.a1[s.length - 1]? = some ctx.max ∧
      cheap_stats_cdf (some ctx) ctx.max true
        = some (0, some ((k : K) / (s.length : K))) ∧
      k ≤ s.length - 1 ∧ (k : K) / (s.length : K) < 1 ∧
      (∀ v, ctx.max < v → cheap_stats_cdf (some ctx) v true = some (0, some 1)) := by
  obtain ⟨ctx, hnew, -, hp, -, -, -, -, -, hmax, -⟩ := cheap_stats_new_facts L f0 s hn
  have hlen : ctx.a1.length = s.length := hp.length_eq
  have hmax2 : ctx.a1[ctx.a1.length - 1]? = some ctx.max := by rw [hlen]; exact hmax
  have hpos : (0 : K) < (s.length : K) := by exact_mod_cast (by omega : 0 < s.length)
  obtain ⟨k, hk, -, hsmall⟩ := calc_cdf_range ctx.a1 ctx.max ctx.max hmax2
  obtain ⟨hkl, -⟩ := hsmall (lt_irrefl _)
  rw [hlen] at hk hkl
  refine ⟨ctx, k, hnew, hmax, by simp [cheap_stats_cdf, hk], by omega, ?_, ?_⟩
  · rw [div_lt_one hpos]
    exact_mod_cast hkl
  · intro v hv
    obtain ⟨k2, hk2, hbig, -⟩ := calc_cdf_range ctx.a1 v ctx.max hmax2
    rw [hbig hv, div_self (by rw [hlen]; exact ne_of_gt hpos)] at hk2
    simp [cheap_stats_cdf, hk2]

/-- Witness of C6 (amended) at the samples `[1, ..., 10]` over the reals. -/
theorem cheap_stats_cdf_at_max_lt_one_witness :
    10 ≤ (oneToTen ℝ).length ∧
    ∃ ctx, ∃ k : Nat,
      cheap_stats_new (Libm.mk Real.sqrt (fun x y => x ^ y) Real.exp) false
        (some (oneToTen ℝ)) true true true true = some (0, some ctx) ∧
      ctx.a1[(oneToTen ℝ).length - 1]? = some ctx.max ∧
      cheap_stats_cdf (some ctx) ctx.max true
        = some (0, some ((k : ℝ) / ((oneToTen ℝ).length : ℝ))) ∧
      k ≤ (oneToTen ℝ).length - 1 ∧ (k : ℝ) / ((oneToTen ℝ).length : ℝ) < 1 ∧
      (∀ v, ctx.max < v → cheap_stats_cdf (some ctx) v true = some (0, some 1)) :=
  ⟨by simp [oneToTen],
    cheap_stats_cdf_at_max_lt_one _ false (oneToTen ℝ) (by simp [oneToTen])⟩

/-- C7: for every array of `n >= 10` samples and every query value `v` strictly smaller
than every sample, `cheap_stats_cdf` stores 0 or `1 / n` (the search only ever lowers `r`
and returns the index 0, the midpoint being computed with the truncating division). -/
theorem cheap_stats_cdf_below_min {K : Type} [LinearOrderedField K] (L : Libm K)
    (f0 : Bool) (s : List K) (hn : 10 ≤ s.length) (v : K) (hv : ∀ x ∈ s, v < x) :
    ∃ ctx c, cheap_stats_new L f0 (some s) true true true true = some (0, some ctx) ∧
      cheap_stats_cdf (some ctx) v true = some (0, some c) ∧
      (c = 0 ∨ c = 1 / (s.length : K)) := by
  obtain ⟨ctx, hnew, -, hp, -⟩ := cheap_stats_new_facts L f0 s hn
  have hall : ∀ x ∈ ctx.a1, v < x := fun x hx => hv x (hp.mem_iff.mp hx)
  have hc := calc_cdf_below_all ctx.a1 v (by rw [hp.length_eq]; omega) hall
  exact ⟨ctx, 0, hnew, by simp [cheap_stats_cdf, hc], Or.inl rfl⟩

/-- Witness of C7 at the samples `[1, ..., 10]` over the reals and `v = 0`. -/
theorem cheap_stats_cdf_below_min_witness :
    10 ≤ (oneToTen ℝ).length ∧ (∀ x ∈ oneToTen ℝ, (0 : ℝ) < x) ∧
    ∃ ctx c, cheap_stats_new (Libm.mk Real.sqrt (fun x y => x ^ y) Real.exp) false
        (some (oneToTen ℝ)) true true true true = some (0, some ctx) ∧
      cheap_stats_cdf (some ctx) 0 true = some (0, some c) ∧
      (c = 0 ∨ c = 1 / ((oneToTen ℝ).length : ℝ)) :=
  ⟨by simp [oneToTen], by simp [oneToTen],
    cheap_stats_cdf_below_min _ false (oneToTen ℝ) (by simp [oneToTen]) 0
      (by simp [oneToTen])⟩


/-! ## The moment engine -/

theorem foldl_add_map {K : Type} [LinearOrderedField K] (f : K → K) (a : List K) (s0 : K) :
    a.foldl (fun s x => s + f x) s0 = s0 + (a.map f).sum := by
  induction a generalizing s0 with
  | nil => simp
  | cons x xs ih => simp [List.foldl, ih, add_assoc]

theorem calc_sum_eq_sum {K : Type} [LinearOrderedField K] (a : List K) :
    calc_sum a = a.sum := by
  unfold calc_sum
  rw [show (fun s x => s + x) = (fun (s : K) x => s + id x) from rfl, foldl_add_map]
  simp

theorem sum_map_sub_const {K : Type} [LinearOrderedField K] (a : List K) (m : K) :
    (a.map (fun x => x - m)).sum = a.sum - (a.length : K) * m := by
  induction a with
  | nil => simp
  | cons x xs ih =>
    simp only [List.map_cons, List.sum_cons, ih, List.length_cons]
    push_cast
    ring

/-- Raw moment of order 1 of a built context: the mean plus the initial value of the
accumulator divided by `n`. -/
theorem cheap_stats_moment_one {K : Type} [LinearOrderedField K] (L : Libm K) (f0 : Bool)
    (s : List K) (hn : 10 ≤ s.length) (hpow : ∀ x, L.pow x 1 = x) (s0 : K) :
    ∃ ctx, cheap_stats_new L f0 (some s) true true true true = some (0, some ctx) ∧
      cheap_stats_moment L s0 (some ctx) 1 true
        = (0, some (ctx.mean + s0 / (s.length : K))) := by
  obtain ⟨ctx, hnew, -, hp, -, -, -, hm, -⟩ := cheap_stats_new_facts L f0 s hn
  refine ⟨ctx, hnew, ?_⟩
  have h1 : (ctx.a1.map (fun x => L.pow x 1)).sum = s.sum := by
    simp only [hpow, List.map_id']
    exact hp.sum_eq
  simp only [cheap_stats_moment, calc_moment, foldl_add_map, h1, hp.length_eq, hm,
    calc_sum_eq_sum, if_false, Bool.true_eq_false]
  congr 2
  ring

/-- Central moment of order 1 of a built context: the initial value of the accumulator
divided by `n`. -/
theorem cheap_stats_central_moment_one {K : Type} [LinearOrderedField K] (L : Libm K)
    (f0 : Bool) (s : List K) (hn : 10 ≤ s.length) (hpow : ∀ x, L.pow x 1 = x) (s0 : K) :
    ∃ ctx, cheap_stats_new L f0 (some s) true true true true = some (0, some ctx) ∧
      cheap_stats_central_moment L s0 (some ctx) 1 true
        = (0, some (s0 / (s.length : K))) := by
  obtain ⟨ctx, hnew, -, hp, -, -, -, hm, -⟩ := cheap_stats_new_facts L f0 s hn
  refine ⟨ctx, hnew, ?_⟩
  have hne : (s.length : K) ≠ 0 := by
    have : 0 < s.length := by omega
    exact_mod_cast (ne_of_gt this)
  have h1 : (ctx.a1.map (fun x => L.pow (x - ctx.mean) 1)).sum = 0 := by
    simp only [hpow]
    rw [sum_map_sub_const, hp.sum_eq, hp.length_eq, hm, calc_sum_eq_sum]
    field_simp
  simp only [cheap_stats_central_moment, calc_central_moment, foldl_add_map, h1,
    hp.length_eq, if_false, Bool.true_eq_false, add_zero]

/-- Standardized moment of order 2 of a built context with non-zero variance: 1 plus
the initial value of the accumulator divided by `n * variance`. -/
theorem cheap_stats_std_moment_two {K : Type} [LinearOrderedField K] (L : Libm K)
    (f0 : Bool) (s : List K) (hn : 10 ≤ s.length) (hpow : ∀ x, L.pow x 2 = x * x)
    (hsqrt : ∀ x : K, 0 ≤ x → L.sqrt x * L.sqrt x = x) (s0 : K) :
    ∃ ctx, cheap_stats_new L f0 (some s) true true true true = some (0, some ctx) ∧
      0 ≤ ctx.variance ∧ ctx.std * ctx.std = ctx.variance ∧
      (ctx.variance ≠ 0 →
        cheap_stats_std_moment L s0 (some ctx) 2 true
          = (0, some (1 + s0 / ((s.length : K) * ctx.variance)))) := by
  obtain ⟨ctx, hnew, -, hp, -, -, -, hm, -, -, -, -, -, hv, hs⟩ :=
    cheap_stats_new_facts L f0 s hn
  have hpos : (0 : K) < (s.length : K) := by
    have : 0 < s.length := by omega
    exact_mod_cast this
  have hne : (s.length : K) ≠ 0 := ne_of_gt hpos
  have hsq : (s.map (fun x => L.pow (x - ctx.mean) 2)).sum
      = (s.length : K) * ctx.variance := by
    rw [hv, ← hm]
    unfold calc_variance
    rw [foldl_add_map]
    simp only [hpow, zero_add]
    field_simp
  have hvar0 : 0 ≤ ctx.variance := by
    have h0 : 0 ≤ (s.map (fun x => L.pow (x - ctx.mean) 2)).sum := by
      apply List.sum_nonneg
      intro y hy
      obtain ⟨x, -, rfl⟩ := List.mem_map.mp hy
      rw [hpow]
      exact mul_self_nonneg _
    rw [hsq] at h0
    exact nonneg_of_mul_nonneg_right h0 hpos
  have hstd : ctx.std * ctx.std = ctx.variance := by
    rw [hs]
    exact hsqrt _ hvar0
  refine ⟨ctx, hnew, hvar0, hstd, fun hvne => ?_⟩
  have h1 : (ctx.a1.map (fun x => L.pow (x - ctx.mean) 2)).sum
      = (s.length : K) * ctx.variance := by
    rw [← hsq]
    exact (hp.map _).sum_eq
  simp only [hpow] at h1
  simp only [cheap_stats_std_moment, calc_std_moment, calc_central_moment, foldl_add_map,
    h1, hp.length_eq, hpow, hstd, if_false, Bool.true_eq_false]
  congr 2
  field_simp
  ring


/-! ## Claims about the moments -/

/-- C8 (code defect, evaluated at a failing input): for the samples `[1, ..., 10]` over
the reals the mean is `5.5`; when the accumulator of `calc_moment`, which the source does
not initialise, holds 1 on entry, `cheap_stats_moment(ctx, 1)` stores `5.6`.  It stores
the mean `5.5` when the accumulator happens to hold 0. -/
theorem cheap_stats_moment_uninitialised :
    ∃ ctx, cheap_stats_new (Libm.mk Real.sqrt (fun x y => x ^ y) Real.exp) false
        (some (oneToTen ℝ)) true true true true = some (0, some ctx) ∧
      ctx.mean = 11 / 2 ∧
      cheap_stats_moment (Libm.mk Real.sqrt (fun x y => x ^ y) Real.exp) 1 (some ctx) 1 true
        = (0, some (28 / 5)) ∧
      cheap_stats_moment (Libm.mk Real.sqrt (fun x y => x ^ y) Real.exp) 0 (some ctx) 1 true
        = (0, some (11 / 2)) := by
  obtain ⟨ctx, hnew, -, -, -, -, hm, -⟩ := cheap_stats_new_oneToTen ℝ
    (Libm.mk Real.sqrt (fun x y => x ^ y) Real.exp) false
  have hl : (oneToTen ℝ).length = 10 := by simp [oneToTen]
  have key : ∀ s0 : ℝ,
      cheap_stats_moment (Libm.mk Real.sqrt (fun x y => x ^ y) Real.exp) s0 (some ctx) 1 true
        = (0, some (11 / 2 + s0 / 10)) := by
    intro s0
    obtain ⟨c, hc, e⟩ := cheap_stats_moment_one
      (Libm.mk Real.sqrt (fun x y => x ^ y) Real.exp) false (oneToTen ℝ) (by simp [oneToTen])
      (fun x => Real.rpow_one x) s0
    have : c = ctx := by
      rw [hnew] at hc
      simpa using hc.symm
    subst this
    rw [e, hm, hl]
    norm_num
  refine ⟨ctx, hnew, hm, ?_, ?_⟩
  · rw [key]
    norm_num
  · rw [key]
    norm_num

/-- C9 (code defect, evaluated at a failing input): for the samples `[1, ..., 10]` over
the reals, when the accumulator of `calc_central_moment`, which the source does not
initialise, holds 1 on entry, `cheap_stats_central_moment(ctx, 1)` stores `0.1`.  It
stores 0 when the accumulator happens to hold 0. -/
theorem cheap_stats_central_moment_uninitialised :
    ∃ ctx, cheap_stats_new (Libm.mk Real.sqrt (fun x y => x ^ y) Real.exp) false
        (some (oneToTen ℝ)) true true true true = some (0, some ctx) ∧
      cheap_stats_central_moment (Libm.mk Real.sqrt (fun x y => x ^ y) Real.exp) 1
        (some ctx) 1 true = (0, some (1 / 10)) ∧
      cheap_stats_central_moment (Libm.mk Real.sqrt (fun x y => x ^ y) Real.exp) 0
        (some ctx) 1 true = (0, some 0) := by
  obtain ⟨ctx, hnew, -⟩ := cheap_stats_new_oneToTen ℝ
    (Libm.mk Real.sqrt (fun x y => x ^ y) Real.exp) false
  have hl : (oneToTen ℝ).length = 10 := by simp [oneToTen]
  have key : ∀ s0 : ℝ,
      cheap_stats_central_moment (Libm.mk Real.sqrt (fun x y => x ^ y) Real.exp) s0
        (some ctx) 1 true = (0, some (s0 / 10)) := by
    intro s0
    obtain ⟨c, hc, e⟩ := cheap_stats_central_moment_one
      (Libm.mk Real.sqrt (fun x y => x ^ y) Real.exp) false (oneToTen ℝ) (by simp [oneToTen])
      (fun x => Real.rpow_one x) s0
    have : c = ctx := by
      rw [hnew] at hc
      simpa using hc.symm
    subst this
    rw [e, hl]
    norm_num
  refine ⟨ctx, hnew, ?_, ?_⟩
  · rw [key]
  · rw [key]
    norm_num

/-- C10 (code defect, evaluated at a failing input): for the samples `[1, ..., 10]` over
the reals `std > 0`; when the accumulator of `calc_central_moment`, which the source does
not initialise, holds 1 on entry, `cheap_stats_std_moment(ctx, 2)` stores `167 / 165`.  It
stores 1 when the accumulator happens to hold 0. -/
theorem cheap_stats_std_moment_uninitialised :
    ∃ ctx, cheap_stats_new (Libm.mk Real.sqrt (fun x y => x ^ y) Real.exp) false
        (some (oneToTen ℝ)) true true true true = some (0, some ctx) ∧
      0 < ctx.std ∧
      cheap_stats_std_moment (Libm.mk Real.sqrt (fun x y => x ^ y) Real.exp) 1
        (some ctx) 2 true = (0, some (167 / 165)) ∧
      cheap_stats_std_moment (Libm.mk Real.sqrt (fun x y => x ^ y) Real.exp) 0
        (some ctx) 2 true = (0, some 1) := by
  obtain ⟨ctx, hnew, -, -, -, -, -, -, -, -, -, -, hv, hs⟩ := cheap_stats_new_oneToTen ℝ
    (Libm.mk Real.sqrt (fun x y => x ^ y) Real.exp) false
  have hl : (oneToTen ℝ).length = 10 := by simp [oneToTen]
  have hstd : 0 < ctx.std := by
    rw [hs]
    exact Real.sqrt_pos.mpr (by norm_num)
  have key : ∀ s0 : ℝ,
      cheap_stats_std_moment (Libm.mk Real.sqrt (fun x y => x ^ y) Real.exp) s0
        (some ctx) 2 true = (0, some (1 + s0 / (10 * (33 / 4)))) := by
    intro s0
    obtain ⟨c, hc, -, -, e⟩ := cheap_stats_std_moment_two
      (Libm.mk Real.sqrt (fun x y => x ^ y) Real.exp) false (oneToTen ℝ) (by simp [oneToTen])
      (fun x => by
        show x ^ (2 : ℝ) = x * x
        rw [Real.rpow_two, sq])
      (fun _ hx => Real.mul_self_sqrt hx) s0
    have : c = ctx := by
      rw [hnew] at hc
      simpa using hc.symm
    subst this
    rw [e (by rw [hv]; norm_num), hv, hl]
    norm_num
  refine ⟨ctx, hnew, hstd, ?_, ?_⟩
  · rw [key]
    norm_num
  · rw [key]
    norm_num

/-! ## Claims about the summary scalars -/

/-- C12: for every array `s` of `n >= 10` samples, in exact arithmetic, the context stored
by `cheap_stats_new` has `total` equal to the sum of the samples, `mean * n = total`, and
`variance * n` equal to the sum of the squared deviations from `mean` (divisor `n`, not
`n - 1`); hence `variance >= 0`. -/
theorem cheap_stats_new_summary {K : Type} [LinearOrderedField K] (L : Libm K) (f0 : Bool)
    (s : List K) (hn : 10 ≤ s.length) :
    ∃ ctx, cheap_stats_new L f0 (some s) true true true true = some (0, some ctx) ∧
      ctx.total = s.sum ∧ ctx.mean * (s.length : K) = ctx.total ∧
      ctx.variance * (s.length : K) = (s.map (fun x => (x - ctx.mean) ^ 2)).sum ∧
      0 ≤ ctx.variance := by
  obtain ⟨ctx, hnew, -, -, -, -, ht, hm, -, -, -, -, -, hv, -⟩ :=
    cheap_stats_new_facts L f0 s hn
  have hpos : (0 : K) < (s.length : K) := by
    have : 0 < s.length := by omega
    exact_mod_cast this
  have hne : (s.length : K) ≠ 0 := ne_of_gt hpos
  have hvar : ctx.variance * (s.length : K)
      = (s.map (fun x => (x - ctx.mean) ^ 2)).sum := by
    rw [hv, ← hm]
    unfold calc_variance
    rw [foldl_add_map, zero_add, div_mul_cancel₀ _ hne]
    simp only [sq]
  refine ⟨ctx, hnew, by rw [ht, calc_sum_eq_sum], ?_, hvar, ?_⟩
  · rw [hm, ht, div_mul_cancel₀ _ hne]
  · have h0 : 0 ≤ (s.map (fun x => (x - ctx.mean) ^ 2)).sum := by
      apply List.sum_nonneg
      intro y hy
      obtain ⟨x, -, rfl⟩ := List.mem_map.mp hy
      exact sq_nonneg _
    rw [← hvar] at h0
    exact nonneg_of_mul_nonneg_left h0 hpos

/-- Witness of C12 at the samples `[1, ..., 10]` over the reals. -/
theorem cheap_stats_new_summary_witness :
    10 ≤ (oneToTen ℝ).length ∧
    ∃ ctx, cheap_stats_new (Libm.mk Real.sqrt (fun x y => x ^ y) Real.exp) false
        (some (oneToTen ℝ)) true true true true = some (0, some ctx) ∧
      ctx.total = (oneToTen ℝ).sum ∧ ctx.mean * ((oneToTen ℝ).length : ℝ) = ctx.total ∧
      ctx.variance * ((oneToTen ℝ).length : ℝ)
        = ((oneToTen ℝ).map (fun x => (x - ctx.mean) ^ 2)).sum ∧
      0 ≤ ctx.variance :=
  ⟨by simp [oneToTen],
    cheap_stats_new_summary _ false (oneToTen ℝ) (by simp [oneToTen])⟩

theorem pearson_value_bounds {K : Type} [LinearOrderedField K] (r : K) (h0 : 0 ≤ r)
    (hr : r * r = 33 / 4) :
    -(3 / 5) < (3 * (11 / 2 - 6)) / (r + 1 / 10 ^ 15) ∧
      (3 * (11 / 2 - 6)) / (r + 1 / 10 ^ 15) < -(1 / 2) := by
  have hlo : 5 / 2 < r := by nlinarith
  have hhi : r < 29 / 10 := by nlinarith
  have hpos : 0 < r + 1 / 10 ^ 15 := by positivity
  constructor
  · rw [lt_div_iff₀ hpos]
    norm_num
    linarith
  · rw [div_lt_iff₀ hpos]
    norm_num
    linarith

theorem cheap_stats_pearson_oneToTen {K : Type} [LinearOrderedField K] (L : Libm K)
    (f0 : Bool) :
    ∃ ctx, cheap_stats_new L f0 (some (oneToTen K)) true true true true
        = some (0, some ctx) ∧
      ctx.mean = 11 / 2 ∧ ctx.median = 6 ∧ ctx.a1[5]? = some ctx.median ∧
      cheap_stats_pearson_skewness (some ctx) true
        = (0, some ((3 * (11 / 2 - 6)) / (L.sqrt (33 / 4) + 1 / 10 ^ 15))) := by
  obtain ⟨ctx, hnew, -, ha, -, -, hm, -, -, -, -, hmed, -, hs⟩ :=
    cheap_stats_new_oneToTen K L f0
  refine ⟨ctx, hnew, hm, hmed, ?_, ?_⟩
  · rw [ha, hmed]
    rfl
  · simp [cheap_stats_pearson_skewness, hm, hmed, hs]

/-! ## Claims about the skewness and the density estimate -/

/-- C11 (as stated, refuted): for the samples `[1, ..., 10]` over the reals the mean is
`5.5` and the median is `a1[5] = 6`; `cheap_stats_pearson_skewness` stores a value `d`
below `-1 / 2`, so its absolute value is not at most `1e-9`. -/
theorem pearson_skewness_not_small :
    ∃ ctx d, cheap_stats_new (Libm.mk Real.sqrt (fun x y => x ^ y) Real.exp) false
        (some (oneToTen ℝ)) true true true true = some (0, some ctx) ∧
      ctx.mean = 11 / 2 ∧ ctx.median = 6 ∧
      cheap_stats_pearson_skewness (some ctx) true = (0, some d) ∧
      d < -(1 / 2) ∧ ¬ |d| ≤ 1 / 10 ^ 9 := by
  obtain ⟨ctx, hnew, hm, hmed, -, hp⟩ :=
    cheap_stats_pearson_oneToTen (Libm.mk Real.sqrt (fun x y => x ^ y) Real.exp) false
  have hb := (pearson_value_bounds (Real.sqrt (33 / 4)) (Real.sqrt_nonneg _)
    (Real.mul_self_sqrt (by norm_num))).2
  refine ⟨ctx, _, hnew, hm, hmed, hp, hb, ?_⟩
  intro habs
  have := (abs_le.mp habs).1
  norm_num at this hb
  linarith

/-- C11 (amended): for the samples `[1, ..., 10]`, with `sqrt` an exact non-negative square
root, `cheap_stats_pearson_skewness` stores `3 * (mean - median) / (std + 1e-15)` with
`mean = 5.5` and `median = a1[5] = 6`, that is `-1.5 / (sqrt(8.25) + 1e-15)`, a value
strictly between `-0.6` and `-0.5`. -/
theorem cheap_stats_pearson_skewness_example {K : Type} [LinearOrderedField K]
    (L : Libm K) (f0 : Bool)
    (hsqrt : ∀ x : K, 0 ≤ x → 0 ≤ L.sqrt x ∧ L.sqrt x * L.sqrt x = x) :
    ∃ ctx d, cheap_stats_new L f0 (some (oneToTen K)) true true true true
        = some (0, some ctx) ∧
      ctx.mean = 11 / 2 ∧ ctx.median = 6 ∧ ctx.a1[5]? = some ctx.median ∧
      cheap_stats_pearson_skewness (some ctx) true = (0, some d) ∧
      d = (3 * (11 / 2 - 6)) / (L.sqrt (33 / 4) + 1 / 10 ^ 15) ∧
      -(3 / 5) < d ∧ d < -(1 / 2) := by
  obtain ⟨ctx, hnew, hm, hmed, hidx, hp⟩ := cheap_stats_pearson_oneToTen L f0
  have hq := hsqrt (33 / 4) (by norm_num)
  have hb := pearson_value_bounds (L.sqrt (33 / 4)) hq.1 hq.2
  exact ⟨ctx, _, hnew, hm, hmed, hidx, hp, rfl, hb.1, hb.2⟩

/-- Witness of C11 (amended) over the reals, with the real square root. -/
theorem cheap_stats_pearson_skewness_example_witness :
    (∀ x : ℝ, 0 ≤ x → 0 ≤ Real.sqrt x ∧ Real.sqrt x * Real.sqrt x = x) ∧
    ∃ ctx d, cheap_stats_new (Libm.mk Real.sqrt (fun x y => x ^ y) Real.exp) false
        (some (oneToTen ℝ)) true true true true = some (0, some ctx) ∧
      ctx.mean = 11 / 2 ∧ ctx.median = 6 ∧ ctx.a1[5]? = some ctx.median ∧
      cheap_stats_pearson_skewness (some ctx) true = (0, some d) ∧
      d = (3 * (11 / 2 - 6)) / (Real.sqrt (33 / 4) + 1 / 10 ^ 15) ∧
      -(3 / 5) < d ∧ d < -(1 / 2) :=
  ⟨fun x hx => ⟨Real.sqrt_nonneg x, Real.mul_self_sqrt hx⟩,
    cheap_stats_pearson_skewness_example
      (Libm.mk Real.sqrt (fun x y => x ^ y) Real.exp) false
      (fun x hx => ⟨Real.sqrt_nonneg x, Real.mul_self_sqrt hx⟩)⟩

theorem sum_pos_of_forall_pos {K : Type} [LinearOrderedField K] (l : List K)
    (hl : l ≠ []) (h : ∀ x ∈ l, 0 < x) : 0 < l.sum := by
  induction l with
  | nil => exact absurd rfl hl
  | cons x xs ih =>
    rw [List.sum_cons]
    by_cases hxs : xs = []
    · subst hxs
      simpa using h x (List.mem_cons_self _ _)
    · exact add_pos (h x (List.mem_cons_self _ _))
        (ih hxs (fun y hy => h y (List.mem_cons_of_mem _ hy)))

/-- The value of `calc_kde` as a sum over the array, and its sign: it is strictly
positive on a non-empty array when `sig > 0`, `exp` is positive and `pow(n, 1/5)` is
positive. -/
theorem calc_kde_pos {K : Type} [LinearOrderedField K] (L : Libm K) (a : List K)
    (sig v : K) (ha : 0 < a.length) (hsig : 0 < sig) (hexp : ∀ x, 0 < L.exp x)
    (hpow : 0 < L.pow (a.length : K) (1 / 5)) :
    calc_kde L a sig v
        = (1 / ((a.length : K) * ((9 / 10) * sig / L.pow (a.length : K) (1 / 5)))) *
          (a.map (fun x =>
            L.exp (-(((v - x) / ((9 / 10) * sig / L.pow (a.length : K) (1 / 5))) ^ 2) / 2)
              / (250662827463 / 100000000000))).sum ∧
      0 < calc_kde L a sig v := by
  have hn : (0 : K) < (a.length : K) := by exact_mod_cast ha
  have hh : 0 < (9 / 10) * sig / L.pow (a.length : K) (1 / 5) := by positivity
  have hne : a ≠ [] := by
    intro h
    rw [h] at ha
    exact absurd ha (by simp)
  have hsum : 0 < (a.map (fun x =>
      L.exp (-(((v - x) / ((9 / 10) * sig / L.pow (a.length : K) (1 / 5))) ^ 2) / 2)
        / (250662827463 / 100000000000))).sum := by
    apply sum_pos_of_forall_pos
    · simpa using hne
    · intro y hy
      obtain ⟨x, -, rfl⟩ := List.mem_map.mp hy
      exact div_pos (hexp _) (by norm_num)
  have heq : calc_kde L a sig v
      = (1 / ((a.length : K) * ((9 / 10) * sig / L.pow (a.length : K) (1 / 5)))) *
        (a.map (fun x =>
          L.exp (-(((v - x) / ((9 / 10) * sig / L.pow (a.length : K) (1 / 5))) ^ 2) / 2)
            / (250662827463 / 100000000000))).sum := by
    unfold calc_kde kernel_gaussian
    simp only [foldl_add_map, zero_add, sq]
    ring
  refine ⟨heq, ?_⟩
  rw [heq]
  exact mul_pos (by positivity) hsum

/-- C15: for every context built by `cheap_stats_new` whose robust spread
`min(std, q3 - q1)` is strictly positive and every query value `v`, with `exp` positive
and `pow` positive on positive bases, `cheap_stats_estimated_pdf` stores the Gaussian
kernel estimate `(1 / (n * h)) * sum of exp(-((v - x_i) / h)^2 / 2) / 2.50662827463` with
`h = 0.9 * min(std, q3 - q1) / pow(n, 1/5)`, and this value is strictly positive. -/
theorem cheap_stats_estimated_pdf_pos {K : Type} [LinearOrderedField K] (L : Libm K)
    (f0 : Bool) (s : List K) (ctx : cheap_stats_t K)
    (hctx : cheap_stats_new L f0 (some s) true true true true = some (0, some ctx))
    (hexp : ∀ x, 0 < L.exp x) (hpow : ∀ x y : K, 0 < x → 0 < L.pow x y)
    (hsig : 0 < min ctx.std (ctx.q3 - ctx.q1)) (v : K) :
    ∃ d, cheap_stats_estimated_pdf L (some ctx) v true = (0, some d) ∧
      d = (1 / ((s.length : K) *
            ((9 / 10) * min ctx.std (ctx.q3 - ctx.q1) / L.pow (s.length : K) (1 / 5)))) *
          (ctx.a1.map (fun x =>
            L.exp (-(((v - x) /
              ((9 / 10) * min ctx.std (ctx.q3 - ctx.q1) / L.pow (s.length : K) (1 / 5))) ^ 2)
                / 2) / (250662827463 / 100000000000))).sum ∧
      0 < d := by
  obtain ⟨hn, -, hp, -⟩ := cheap_stats_new_inv L f0 s ctx hctx
  have hlen : ctx.a1.length = s.length := hp.length_eq
  have hsel : (if ctx.q3 - ctx.q1 > ctx.std then ctx.std else ctx.q3 - ctx.q1)
      = min ctx.std (ctx.q3 - ctx.q1) := by
    by_cases h : ctx.q3 - ctx.q1 > ctx.std
    · rw [if_pos h, min_eq_left (le_of_lt h)]
    · rw [if_neg h, min_eq_right (not_lt.mp h)]
  have hposn : (0 : K) < (ctx.a1.length : K) := by
    have : 0 < ctx.a1.length := by omega
    exact_mod_cast this
  obtain ⟨heq, hpos⟩ := calc_kde_pos L ctx.a1 (min ctx.std (ctx.q3 - ctx.q1)) v
    (by omega) hsig hexp (hpow _ _ hposn)
  rw [hlen] at heq
  refine ⟨calc_kde L ctx.a1 (min ctx.std (ctx.q3 - ctx.q1)) v, ?_, heq, hpos⟩
  simp only [cheap_stats_estimated_pdf, hsel, if_false, Bool.true_eq_false]

/-- Witness of C15 at the samples `[1, ..., 10]` over the reals, at `v = mean = 5.5`, with
the real square root, power and exponential. -/
theorem cheap_stats_estimated_pdf_pos_witness :
    ∃ ctx, cheap_stats_new (Libm.mk Real.sqrt (fun x y => x ^ y) Real.exp) false
        (some (oneToTen ℝ)) true true true true = some (0, some ctx) ∧
      ctx.mean = 11 / 2 ∧ 0 < min ctx.std (ctx.q3 - ctx.q1) ∧
      ∃ d, cheap_stats_estimated_pdf (Libm.mk Real.sqrt (fun x y => x ^ y) Real.exp)
          (some ctx) (11 / 2) true = (0, some d) ∧
        d = (1 / (((oneToTen ℝ).length : ℝ) *
              ((9 / 10) * min ctx.std (ctx.q3 - ctx.q1)
                / ((oneToTen ℝ).length : ℝ) ^ (1 / 5 : ℝ)))) *
            (ctx.a1.map (fun x =>
              Real.exp (-(((11 / 2 - x) /
                ((9 / 10) * min ctx.std (ctx.q3 - ctx.q1)
                  / ((oneToTen ℝ).length : ℝ) ^ (1 / 5 : ℝ))) ^ 2) / 2)
                / (250662827463 / 100000000000))).sum ∧
        0 < d := by
  obtain ⟨ctx, hnew, -, -, -, -, hm, -, -, hq1, hq3, -, -, hs⟩ := cheap_stats_new_oneToTen ℝ
    (Libm.mk Real.sqrt (fun x y => x ^ y) Real.exp) false
  have hsig : 0 < min ctx.std (ctx.q3 - ctx.q1) := by
    rw [hs, hq1, hq3]
    exact lt_min (Real.sqrt_pos.mpr (by norm_num)) (by norm_num)
  exact ⟨ctx, hnew, hm, hsig,
    cheap_stats_estimated_pdf_pos (Libm.mk Real.sqrt (fun x y => x ^ y) Real.exp) false
      (oneToTen ℝ) ctx hnew Real.exp_pos (fun x y hx => Real.rpow_pos_of_pos hx y) hsig
      (11 / 2)⟩

/-! ## Claims about the rank search -/

/-- C16: for every non-decreasing array `a` of length `n >= 1` and every value `v` that
occurs in `a`, `binsearch(a, n, v)` returns an index `idx` with `0 <= idx < n` and
`a[idx] = v`. -/
theorem binsearch_finds {α : Type} [LinearOrder α] (a : List α) (v : α)
    (hs : nonDecreasing a) (hn : 1 ≤ a.length) (hv : v ∈ a) :
    ∃ idx : Int, binsearch a v = some idx ∧ 0 ≤ idx ∧ idx < a.length ∧
      a[idx.toNat]? = some v := by
  obtain ⟨k, e, hk, hcase⟩ :=
    binsearch_sorted a v ((nonDecreasing_iff_pairwise a).mp hs) (by omega)
  refine ⟨(k : Int), e, by omega, by omega, ?_⟩
  rw [Int.toNat_ofNat]
  rcases hcase with h | ⟨hlo, hhi⟩
  · exact h
  · obtain ⟨j, hj⟩ := List.mem_iff_getElem?.mp hv
    rcases Nat.lt_trichotomy j k with hjk | hjk | hjk
    · exact absurd (hlo j v hjk hj) (lt_irrefl v)
    · rw [← hjk]
      exact hj
    · exact absurd (hhi j v hjk hj) (lt_irrefl v)

/-- Witness of C16 at the array `[1, 2, 2, 2, 3]` of rationals and `v = 2`. -/
theorem binsearch_finds_witness :
    nonDecreasing ([1, 2, 2, 2, 3] : List ℚ) ∧ 1 ≤ ([1, 2, 2, 2, 3] : List ℚ).length ∧
    (2 : ℚ) ∈ ([1, 2, 2, 2, 3] : List ℚ) ∧
    ∃ idx : Int, binsearch ([1, 2, 2, 2, 3] : List ℚ) 2 = some idx ∧ 0 ≤ idx ∧
      idx < ([1, 2, 2, 2, 3] : List ℚ).length ∧
      ([1, 2, 2, 2, 3] : List ℚ)[idx.toNat]? = some 2 :=
  ⟨(nonDecreasing_iff_pairwise _).mpr (by decide), by decide, by decide,
    binsearch_finds ([1, 2, 2, 2, 3] : List ℚ) 2
      ((nonDecreasing_iff_pairwise _).mpr (by decide)) (by decide) (by decide)⟩

/-- C18: for every array `a` of length `n >= 1` (in any order) and every query value `v`,
`binsearch` returns an index in `0 .. n-1` (a read outside `0 .. n-1` would leave the
embedded search without a result); and `calc_cdf(a, n, v)` returns a value `c` with
`0 <= c <= 1`, where `c = 1` exactly when `v > a[n - 1]`. -/
theorem calc_cdf_unit_interval {K : Type} [LinearOrderedField K] (a : List K) (v : K)
    (hn : 1 ≤ a.length) :
    (∃ idx : Int, binsearch a v = some idx ∧ 0 ≤ idx ∧ idx < a.length) ∧
    ∃ c m, a[a.length - 1]? = some m ∧ calc_cdf a v = some c ∧ 0 ≤ c ∧ c ≤ 1 ∧
      (c = 1 ↔ v > m) := by
  have hb : a.length - 1 < a.length := by omega
  have hlast : a[a.length - 1]? = some a[a.length - 1] := List.getElem?_eq_getElem _
  have hpos : (0 : K) < (a.length : K) := by
    have : 0 < a.length := by omega
    exact_mod_cast this
  obtain ⟨k, hk, hbig, hsmall⟩ := calc_cdf_range a v a[a.length - 1] hlast
  refine ⟨binsearch_range a v (by omega), (k : K) / (a.length : K), a[a.length - 1], hlast,
    hk, by positivity, ?_, ?_⟩
  · by_cases hv : a[a.length - 1] < v
    · rw [hbig hv, div_self (ne_of_gt hpos)]
    · rw [div_le_one hpos]
      exact_mod_cast le_of_lt (hsmall hv).1
  · constructor
    · intro h1
      by_contra hv
      have hlt : (k : K) < (a.length : K) := by exact_mod_cast (hsmall hv).1
      rw [div_eq_one_iff_eq (ne_of_gt hpos)] at h1
      exact absurd h1 (ne_of_lt hlt)
    · intro hv
      rw [hbig hv, div_self (ne_of_gt hpos)]

/-- Witness of C18 at the unordered array `[3, 1, 2]` of rationals and `v = 2`. -/
theorem calc_cdf_unit_interval_witness :
    1 ≤ ([3, 1, 2] : List ℚ).length ∧
    (∃ idx : Int, binsearch ([3, 1, 2] : List ℚ) 2 = some idx ∧ 0 ≤ idx ∧
      idx < ([3, 1, 2] : List ℚ).length) ∧
    ∃ c m, ([3, 1, 2] : List ℚ)[([3, 1, 2] : List ℚ).length - 1]? = some m ∧
      calc_cdf ([3, 1, 2] : List ℚ) 2 = some c ∧ 0 ≤ c ∧ c ≤ 1 ∧ (c = 1 ↔ 2 > m) :=
  ⟨by decide, calc_cdf_unit_interval ([3, 1, 2] : List ℚ) 2 (by decide)⟩

/-- Two query values that compare in the same way with every entry of the array drive
`binsearchLoop` through the same states. -/
theorem binsearchLoop_congr {α : Type} [LinearOrder α] (a : List α) (v w : α)
    (h : ∀ x ∈ a, (x < v ↔ x < w) ∧ (v < x ↔ w < x)) (fuel : Nat) :
    ∀ l r : Int, binsearchLoop a v fuel l r = binsearchLoop a w fuel l r := by
  induction fuel with
  | zero => intro l r; rfl
  | succ fuel ih =>
    intro l r
    unfold binsearchLoop
    by_cases hrl : r ≤ l
    · simp only [hrl, if_true]
    · simp only [hrl, if_false]
      by_cases h0 : 0 ≤ Int.tdiv (l + r) 2
      · simp only [h0, if_true]
        cases hx : a[(Int.tdiv (l + r) 2).toNat]? with
        | none => rfl
        | some x =>
          have hxa := h x (List.getElem?_mem hx)
          simp only [hxa.1, gt_iff_lt, hxa.2, ih]
      · simp only [h0, if_false]

/-- On a non-decreasing non-empty array the index returned by `binsearch` does not
decrease when the query value grows. -/
theorem binsearch_mono {α : Type} [LinearOrder α] (a : List α) (v w : α)
    (hs : a.Pairwise (· ≤ ·)) (hn : 0 < a.length) (hvw : v ≤ w) :
    ∃ k1 k2 : Nat, binsearch a v = some (k1 : Int) ∧ binsearch a w = some (k2 : Int) ∧
      k1 ≤ k2 := by
  obtain ⟨k1, e1, hk1, c1⟩ := binsearch_sorted a v hs hn
  obtain ⟨k2, e2, hk2, c2⟩ := binsearch_sorted a w hs hn
  refine ⟨k1, k2, e1, e2, ?_⟩
  by_contra hgt
  have hlt : k2 < k1 := by omega
  have hget1 : a[k1]? = some a[k1] := List.getElem?_eq_getElem _
  have hget2 : a[k2]? = some a[k2] := List.getElem?_eq_getElem _
  have hmono := pairwise_index_le a hs
  -- the entry at `k1` is at least `w`, the entry at `k2` is at most `v`
  have h1w : w ≤ a[k1] := by
    rcases c2 with h | h
    · exact hmono k2 k1 w a[k1] (le_of_lt hlt) h hget1
    · exact le_of_lt (h.2 k1 a[k1] hlt hget1)
  have h2v : a[k2] ≤ v := by
    rcases c1 with h | h
    · exact hmono k2 k1 a[k2] v (le_of_lt hlt) hget2 h
    · exact le_of_lt (h.1 k2 a[k2] hlt hget2)
  have hsame : ∀ x ∈ a, (x < v ↔ x < w) ∧ (v < x ↔ w < x) := by
    intro x hx
    obtain ⟨j, hj⟩ := List.mem_iff_getElem?.mp hx
    by_cases hjk : j ≤ k2
    · have hxv : x ≤ v := le_trans (hmono j k2 x a[k2] hjk hj hget2) h2v
      rcases c1 with h | h
      · -- `a[k1] = v`, so `w <= v` and the two values are equal
        have hwv : w ≤ v := by
          have := Option.some.inj (hget1.symm.trans h)
          rw [this] at h1w
          exact h1w
        have : v = w := le_antisymm hvw hwv
        subst this
        exact ⟨Iff.rfl, Iff.rfl⟩
      · have hxlt : x < v := h.1 j x (by omega) hj
        exact ⟨⟨fun _ => lt_of_lt_of_le hxlt hvw, fun _ => hxlt⟩,
          ⟨fun hv => absurd hxlt (not_lt.mpr (le_of_lt hv)),
            fun hw => absurd (lt_of_lt_of_le hxlt hvw) (not_lt.mpr (le_of_lt hw))⟩⟩
    · have hjk2 : k2 < j := by omega
      rcases c2 with h | h
      · -- `a[k2] = w`, so `w <= v` and the two values are equal
        have hwv : w ≤ v := by
          have := Option.some.inj (hget2.symm.trans h)
          rw [this] at h2v
          exact h2v
        have : v = w := le_antisymm hvw hwv
        subst this
        exact ⟨Iff.rfl, Iff.rfl⟩
      · have hwx : w < x := h.2 j x hjk2 hj
        have hvx : v < x := lt_of_le_of_lt hvw hwx
        exact ⟨⟨fun hv => absurd hvx (not_lt.mpr (le_of_lt hv)),
            fun hw => absurd hwx (not_lt.mpr (le_of_lt hw))⟩,
          ⟨fun _ => hwx, fun _ => hvx⟩⟩
  have heq : binsearch a v = binsearch a w := by
    unfold binsearch
    exact binsearchLoop_congr a v w hsame _ _ _
  rw [e1, e2] at heq
  have : (k1 : Int) = (k2 : Int) := Option.some.inj heq
  omega

/-- C19: the empirical CDF is monotone: for every non-decreasing array `a` of length
`n >= 1` (duplicates allowed) and all query values `v1 <= v2`, both calls of `calc_cdf`
return a value and `calc_cdf(a, n, v1) <= calc_cdf(a, n, v2)`. -/
theorem calc_cdf_mono {K : Type} [LinearOrderedField K] (a : List K) (v1 v2 : K)
    (hs : nonDecreasing a) (hn : 1 ≤ a.length) (hv : v1 ≤ v2) :
    ∃ c1 c2, calc_cdf a v1 = some c1 ∧ calc_cdf a v2 = some c2 ∧ c1 ≤ c2 := by
  have hb : a.length - 1 < a.length := by omega
  have hlast : a[a.length - 1]? = some a[a.length - 1] := List.getElem?_eq_getElem _
  have hpos : (0 : K) < (a.length : K) := by
    have : 0 < a.length := by omega
    exact_mod_cast this
  obtain ⟨k1, e1, hbig1, hsmall1⟩ := calc_cdf_range a v1 a[a.length - 1] hlast
  obtain ⟨k2, e2, hbig2, hsmall2⟩ := calc_cdf_range a v2 a[a.length - 1] hlast
  refine ⟨_, _, e1, e2, ?_⟩
  rw [div_le_div_iff_of_pos_right hpos]
  have hle : k1 ≤ k2 := by
    by_cases h2 : a[a.length - 1] < v2
    · by_cases h1 : a[a.length - 1] < v1
      · rw [hbig1 h1, hbig2 h2]
      · rw [hbig2 h2]
        exact le_of_lt (hsmall1 h1).1
    · have h1 : ¬ a[a.length - 1] < v1 := fun h => h2 (lt_of_lt_of_le h hv)
      obtain ⟨j1, j2, b1, b2, hj⟩ :=
        binsearch_mono a v1 v2 ((nonDecreasing_iff_pairwise a).mp hs) (by omega) hv
      have q1 : (j1 : Int) = (k1 : Int) := Option.some.inj (b1.symm.trans (hsmall1 h1).2)
      have q2 : (j2 : Int) = (k2 : Int) := Option.some.inj (b2.symm.trans (hsmall2 h2).2)
      omega
  exact_mod_cast hle

/-- Witness of C19 at the array `[1, 2, 2, 2, 3]` of rationals and the query values
`3 / 2 <= 2`. -/
theorem calc_cdf_mono_witness :
    nonDecreasing ([1, 2, 2, 2, 3] : List ℚ) ∧ 1 ≤ ([1, 2, 2, 2, 3] : List ℚ).length ∧
    (3 / 2 : ℚ) ≤ 2 ∧
    ∃ c1 c2, calc_cdf ([1, 2, 2, 2, 3] : List ℚ) (3 / 2) = some c1 ∧
      calc_cdf ([1, 2, 2, 2, 3] : List ℚ) 2 = some c2 ∧ c1 ≤ c2 :=
  ⟨(nonDecreasing_iff_pairwise _).mpr (by decide), by decide, by norm_num,
    calc_cdf_mono ([1, 2, 2, 2, 3] : List ℚ) (3 / 2) 2
      ((nonDecreasing_iff_pairwise _).mpr (by decide)) (by decide) (by norm_num)⟩

/-! ## The passes of the sorter -/

theorem combsortTrace_snd {α : Type} [LinearOrder α] (fuel : Nat) :
    ∀ (h : Nat) (f : Bool) (a : List α),
      combsortLoop fuel h f a = (combsortTrace fuel h f a).map Prod.snd := by
  induction fuel with
  | zero => intro h f a; rfl
  | succ fuel ih =>
    intro h f a
    unfold combsortLoop combsortTrace
    split
    · simp only [ih, Option.map_map]
      rfl
    · rfl

theorem SHRINK_pos (h : Nat) (hh : 2 ≤ h) :
    1 ≤ (if SHRINK h = 9 ∨ SHRINK h = 10 then 11 else SHRINK h) := by
  unfold SHRINK
  split <;> omega

/-- The record of passes from a state `(h, f)`: the loop ends, every gap is below `h`
(and is 0 when `h = 0`), the gaps strictly decrease, the gap 1 is used when `h >= 2`, the
last pass has a gap `<= 1` and leaves the flag clear, and there is a pass at all when the
loop condition holds. -/
theorem combsortTrace_spec {α : Type} [LinearOrder α] (fuel : Nat) :
    ∀ (h : Nat) (f : Bool) (a : List α), h + 2 ≤ fuel →
      ∃ tr r, combsortTrace fuel h f a = some (tr, r) ∧
        (∀ e ∈ tr, e.1 ≤ h - 1) ∧ (tr.map Prod.fst).Pairwise (· > ·) ∧
        (2 ≤ h → 1 ∈ tr.map Prod.fst) ∧
        (∀ e, tr.getLast? = some e → e.1 ≤ 1 ∧ e.2 = false) ∧
        ((1 < h ∨ f = true) → tr ≠ []) := by
  induction fuel with
  | zero => intro h f a hf; omega
  | succ fuel ih =>
    intro h f a hf
    unfold combsortTrace
    split
    · rename_i hc
      by_cases h2 : 2 ≤ h
      · have hlt := SHRINK_lt h (by omega)
        have hpos := SHRINK_pos h h2
        dsimp only
        generalize (if SHRINK h = 9 ∨ SHRINK h = 10 then 11 else SHRINK h) = g at hlt hpos ⊢
        obtain ⟨tr, r, e, hb, hpw, hone, hlast, hne⟩ :=
          ih g (combPass g a).2 (combPass g a).1 (by omega)
        refine ⟨(g, (combPass g a).2) :: tr, r, by simp only [e, Option.map_some'],
          ?_, ?_, ?_, ?_, ?_⟩
        · intro x hx
          rcases List.mem_cons.mp hx with rfl | hx
          · show g ≤ h - 1
            omega
          · have := hb x hx
            omega
        · rw [List.map_cons, List.pairwise_cons]
          refine ⟨?_, hpw⟩
          intro y hy
          obtain ⟨x, hx, rfl⟩ := List.mem_map.mp hy
          have := hb x hx
          show x.1 < g
          omega
        · intro _
          rw [List.map_cons, List.mem_cons]
          by_cases hg : 2 ≤ g
          · exact Or.inr (hone hg)
          · left
            show 1 = g
            omega
        · intro x hx
          cases tr with
          | nil =>
            have hstop : ¬ (1 < g ∨ (combPass g a).2 = true) := fun hcond => hne hcond rfl
            simp only [List.getLast?_singleton, Option.some.injEq] at hx
            subst hx
            push_neg at hstop
            exact ⟨by show g ≤ 1; omega, by simpa using hstop.2⟩
          | cons y ys =>
            rw [List.getLast?_cons_cons] at hx
            exact hlast x hx
        · intro _
          exact List.cons_ne_nil _ _
      · have hz : (if SHRINK h = 9 ∨ SHRINK h = 10 then 11 else SHRINK h) = 0 := by
          unfold SHRINK
          split <;> omega
        simp only [hz, combPass_zero]
        cases fuel with
        | zero => omega
        | succ fuel =>
          refine ⟨[(0, false)], a, by simp [combsortTrace], ?_, ?_, ?_, ?_, ?_⟩
          · intro x hx
            simp only [List.mem_singleton] at hx
            subst hx
            exact Nat.zero_le _
          · simp
          · intro h2'
            exact absurd h2' h2
          · intro x hx
            simp only [List.getLast?_singleton, Option.some.injEq] at hx
            subst hx
            exact ⟨Nat.zero_le _, rfl⟩
          · intro _
            exact List.cons_ne_nil _ _
    · rename_i hc
      refine ⟨[], a, rfl, ?_, ?_, ?_, ?_, ?_⟩
      · intro x hx
        exact absurd hx (List.not_mem_nil _)
      · simp
      · intro h2
        exact absurd (Or.inl (by omega)) hc
      · intro x hx
        simp at hx
      · intro hcond
        exact absurd hcond (by simpa using hc)

theorem combsort11_trace {α : Type} [LinearOrder α] (f0 : Bool) (a : List α)
    (hn : 2 ≤ a.length) :
    ∃ tr r, combsortTrace (a.length + 2) a.length f0 a = some (tr, r) ∧
      combsort11 f0 a = some r ∧
      (∀ e ∈ tr, e.1 < a.length) ∧ (tr.map Prod.fst).Pairwise (· > ·) ∧
      1 ∈ tr.map Prod.fst ∧ ∃ g, tr.getLast? = some (g, false) ∧ g ≤ 1 := by
  obtain ⟨tr, r, e, hb, hpw, hone, hlast, hne⟩ :=
    combsortTrace_spec (a.length + 2) a.length f0 a (le_refl _)
  have hne2 : tr ≠ [] := hne (Or.inl (by omega))
  obtain ⟨x, hx⟩ : ∃ x, tr.getLast? = some x := by
    cases hq : tr.getLast? with
    | none => exact absurd (List.getLast?_eq_none_iff.mp hq) hne2
    | some x => exact ⟨x, rfl⟩
  have hxl := hlast x hx
  refine ⟨tr, r, e, ?_, ?_, hpw, hone hn, x.1, ?_, hxl.1⟩
  · unfold combsort11
    rw [combsortTrace_snd, e]
    rfl
  · intro y hy
    have := hb y hy
    omega
  · rw [hx, ← hxl.2]

/-! ## Claims about the passes of the sorter -/

/-- C17: on every array of length `n >= 10`, `combsort11` terminates; the gaps of its
passes strictly decrease and reach 1, at most one pass follows the pass with gap 1, and
the last pass has a gap `<= 1` and makes no swap (its flag `f` stays 0). -/
theorem combsort11_terminates {α : Type} [LinearOrder α] (f0 : Bool) (a : List α)
    (hn : 10 ≤ a.length) :
    ∃ tr r, combsortTrace (a.length + 2) a.length f0 a = some (tr, r) ∧
      combsort11 f0 a = some r ∧
      (tr.map Prod.fst).Pairwise (· > ·) ∧ 1 ∈ tr.map Prod.fst ∧
      (∀ gs1 gs2, tr.map Prod.fst = gs1 ++ 1 :: gs2 → gs2.length ≤ 1) ∧
      ∃ g, tr.getLast? = some (g, false) ∧ g ≤ 1 := by
  obtain ⟨tr, r, e, hsort, -, hpw, hone, hlast⟩ := combsort11_trace f0 a (by omega)
  refine ⟨tr, r, e, hsort, hpw, hone, ?_, hlast⟩
  intro gs1 gs2 hsplit
  rw [hsplit] at hpw
  have h1 := (List.pairwise_append.mp hpw).2.1
  rw [List.pairwise_cons] at h1
  match gs2, h1 with
  | [], _ => simp
  | [_], _ => simp
  | x :: y :: _, h1 =>
    have hx : 1 > x := h1.1 x (by simp)
    have hxy : x > y := (List.pairwise_cons.mp h1.2).1 y (by simp)
    omega

/-- Witness of C17 at the array `[1, 2, 3, 6, 4, 7, 8, 9, 10, 5]` of rationals. -/
theorem combsort11_terminates_witness :
    10 ≤ (unsortedTen ℚ).length ∧
    ∃ tr r, combsortTrace ((unsortedTen ℚ).length + 2) (unsortedTen ℚ).length false
        (unsortedTen ℚ) = some (tr, r) ∧
      combsort11 false (unsortedTen ℚ) = some r ∧
      (tr.map Prod.fst).Pairwise (· > ·) ∧ 1 ∈ tr.map Prod.fst ∧
      (∀ gs1 gs2, tr.map Prod.fst = gs1 ++ 1 :: gs2 → gs2.length ≤ 1) ∧
      ∃ g, tr.getLast? = some (g, false) ∧ g ≤ 1 :=
  ⟨by decide, combsort11_terminates false (unsortedTen ℚ) (by decide)⟩

/-! ## The smallest and the largest sample -/

/-- One step of a pass moves a smallest entry only when it is the right-hand entry of the
comparison: a smallest entry at `q` is afterwards at `i` when `i + g = q`, and still at
`q` otherwise. -/
theorem combStep_min_track {α : Type} [LinearOrder α] (g : Nat) (s : List α × Bool)
    (i q : Nat) (m : α) (hq : s.1[q]? = some m) (hmin : ∀ y ∈ s.1, m ≤ y) :
    (combStep g s i).1[if i + g = q then i else q]? = some m := by
  have hql := (List.getElem?_eq_some_iff.mp hq).1
  unfold combStep
  cases hx : s.1[i]? with
  | none =>
    have hil : s.1.length ≤ i := List.getElem?_eq_none_iff.mp hx
    have hne : ¬ i + g = q := by omega
    simp only [hne, if_false]
    exact hq
  | some x =>
    have hil := (List.getElem?_eq_some_iff.mp hx).1
    cases hy : s.1[i + g]? with
    | none =>
      have hjl : s.1.length ≤ i + g := List.getElem?_eq_none_iff.mp hy
      have hne : ¬ i + g = q := by omega
      simp only [hne, if_false]
      exact hq
    | some y =>
      have hjl := (List.getElem?_eq_some_iff.mp hy).1
      simp only
      by_cases hxy : x > y
      · simp only [hxy, if_true]
        by_cases e : i + g = q
        · have hym : y = m := by
            rw [e, hq] at hy
            exact (Option.some.inj hy).symm
          simp only [e, if_true]
          rw [List.getElem?_set_self (by simpa using hil), hym]
        · simp only [e, if_false]
          have hiq : i ≠ q := by
            intro hiq
            have hxm : x = m := by
              rw [hiq, hq] at hx
              exact (Option.some.inj hx).symm
            have := hmin y (List.getElem?_mem hy)
            rw [hxm] at hxy
            exact absurd hxy (not_lt.mpr this)
          rw [List.getElem?_set_ne hiq, List.getElem?_set_ne e]
          exact hq
      · simp only [hxy, if_false]
        by_cases e : i + g = q
        · have hym : y = m := by
            rw [e, hq] at hy
            exact (Option.some.inj hy).symm
          have hxm : x = m :=
            le_antisymm (hym ▸ not_lt.mp hxy) (hmin x (List.getElem?_mem hx))
          simp only [e, if_true]
          rw [hx, hxm]
        · simp only [e, if_false]
          exact hq

/-- A pass with gap `g >= 1` takes a smallest entry from index `p` to index `p - g` when
`g <= p`, and leaves it at `p` otherwise (stated for the first `k` steps of the pass). -/
theorem foldl_combStep_min {α : Type} [LinearOrder α] (g : Nat) (hg : 1 ≤ g) (a : List α)
    (p : Nat) (m : α) (hp : a[p]? = some m) (hmin : ∀ y ∈ a, m ≤ y) (k : Nat) :
    ((List.range k).foldl (combStep g) (a, false)).1[
      if g ≤ p ∧ p - g < k then p - g else p]? = some m := by
  induction k with
  | zero => simpa using hp
  | succ k ih =>
    rw [List.range_succ, List.foldl_append]
    simp only [List.foldl_cons, List.foldl_nil]
    have hperm := foldl_combStep_perm g (List.range k) (a, false)
    have hmin2 : ∀ y ∈ ((List.range k).foldl (combStep g) (a, false)).1, m ≤ y :=
      fun y hy => hmin y (hperm.mem_iff.mp hy)
    have := combStep_min_track g _ k _ m ih hmin2
    have hidx : (if k + g = (if g ≤ p ∧ p - g < k then p - g else p) then k
        else (if g ≤ p ∧ p - g < k then p - g else p))
        = (if g ≤ p ∧ p - g < k + 1 then p - g else p) := by
      split_ifs <;> omega
    rw [hidx] at this
    exact this

theorem combPass_min {α : Type} [LinearOrder α] (g : Nat) (a : List α) (p : Nat) (m : α)
    (hp : a[p]? = some m) (hmin : ∀ y ∈ a, m ≤ y) :
    (combPass g a).1[if g ≤ p then p - g else p]? = some m := by
  have hpl := (List.getElem?_eq_some_iff.mp hp).1
  rcases Nat.eq_zero_or_pos g with h0 | hpos
  · subst h0
    simpa [combPass_zero] using hp
  · have := foldl_combStep_min g hpos a p m hp hmin (a.length - g)
    have hidx : (if g ≤ p ∧ p - g < a.length - g then p - g else p)
        = (if g ≤ p then p - g else p) := by
      split_ifs <;> omega
    rw [hidx] at this
    exact this

/-- From a state `(h, f, a)` in which a smallest entry sits at an index `p <= h - 1`, the
loop of `combsort11` ends with a smallest entry at index 0. -/
theorem combsortLoop_min {α : Type} [LinearOrder α] (fuel : Nat) :
    ∀ (h : Nat) (f : Bool) (a : List α) (p : Nat) (m : α), a[p]? = some m →
      (∀ y ∈ a, m ≤ y) → p ≤ h - 1 → ∀ r, combsortLoop fuel h f a = some r →
      r[0]? = some m := by
  induction fuel with
  | zero =>
    intro h f a p m _ _ _ r hr
    simp [combsortLoop] at hr
  | succ fuel ih =>
    intro h f a p m hp hmin hph r hr
    unfold combsortLoop at hr
    split at hr
    · dsimp only at hr
      have hlt : 2 ≤ h →
          h ≤ 2 * (if SHRINK h = 9 ∨ SHRINK h = 10 then 11 else SHRINK h) := by
        intro h2
        unfold SHRINK
        split <;> omega
      have hz : h ≤ 1 → (if SHRINK h = 9 ∨ SHRINK h = 10 then 11 else SHRINK h) = 0 := by
        intro h1
        unfold SHRINK
        split <;> omega
      generalize (if SHRINK h = 9 ∨ SHRINK h = 10 then 11 else SHRINK h) = g at hr hlt hz
      have hmin2 : ∀ y ∈ (combPass g a).1, m ≤ y :=
        fun y hy => hmin y ((combPass_perm g a).mem_iff.mp hy)
      refine ih g (combPass g a).2 (combPass g a).1 (if g ≤ p then p - g else p) m
        (combPass_min g a p m hp hmin) hmin2 ?_ r hr
      by_cases h2 : 2 ≤ h
      · have := hlt h2
        split_ifs <;> omega
      · have := hz (by omega)
        split_ifs <;> omega
    · rename_i hc
      have hr2 : a = r := Option.some.inj hr
      subst hr2
      have hp0 : p = 0 := by
        have : ¬ h > 1 := fun h1 => hc (Or.inl h1)
        omega
      rw [← hp0]
      exact hp

/-- One step of a pass, at an index `i` with `i + g` inside the array, moves a largest
entry only when it is the left-hand entry of the comparison: a largest entry at `q` is
afterwards at `i + g` when `i = q`, and still at `q` otherwise. -/
theorem combStep_max_track {α : Type} [LinearOrder α] (g : Nat) (s : List α × Bool)
    (i q : Nat) (M : α) (hq : s.1[q]? = some M) (hmax : ∀ y ∈ s.1, y ≤ M)
    (hi : i + g < s.1.length) :
    (combStep g s i).1[if i = q then i + g else q]? = some M := by
  have hil : i < s.1.length := by omega
  obtain ⟨x, hx⟩ : ∃ x, s.1[i]? = some x := ⟨_, List.getElem?_eq_getElem hil⟩
  obtain ⟨y, hy⟩ : ∃ y, s.1[i + g]? = some y := ⟨_, List.getElem?_eq_getElem hi⟩
  unfold combStep
  rw [hx, hy]
  simp only
  by_cases hxy : x > y
  · simp only [hxy, if_true]
    have hg : i ≠ i + g := by
      intro hg
      rw [← hg, hx] at hy
      rw [Option.some.inj hy] at hxy
      exact lt_irrefl _ hxy
    by_cases e : i = q
    · have hxm : x = M := by
        rw [e, hq] at hx
        exact (Option.some.inj hx).symm
      simp only [e, if_true]
      rw [← e, List.getElem?_set_ne hg, List.getElem?_set_self hi, hxm]
    · simp only [e, if_false]
      have hjq : i + g ≠ q := by
        intro hjq
        have hym : y = M := by
          rw [hjq, hq] at hy
          exact (Option.some.inj hy).symm
        rw [hym] at hxy
        exact absurd hxy (not_lt.mpr (hmax _ (List.getElem?_mem hx)))
      rw [List.getElem?_set_ne e, List.getElem?_set_ne hjq]
      exact hq
  · simp only [hxy, if_false]
    by_cases e : i = q
    · have hxm : x = M := by
        rw [e, hq] at hx
        exact (Option.some.inj hx).symm
      have hym : y = M :=
        le_antisymm (hmax _ (List.getElem?_mem hy)) (hxm ▸ not_lt.mp hxy)
      simp only [e, if_true]
      rw [← e, hy, hym]
    · simp only [e, if_false]
      exact hq

/-- After the first `k` steps of a pass with gap `g >= 1` a largest entry sits at an
index `q >= k`. -/
theorem foldl_combStep_max {α : Type} [LinearOrder α] (g : Nat) (hg : 1 ≤ g) (a : List α)
    (p : Nat) (M : α) (hp : a[p]? = some M) (hmax : ∀ y ∈ a, y ≤ M) (k : Nat)
    (hk : k ≤ a.length - g) :
    ∃ q, k ≤ q ∧ ((List.range k).foldl (combStep g) (a, false)).1[q]? = some M := by
  induction k with
  | zero => exact ⟨p, Nat.zero_le _, by simpa using hp⟩
  | succ k ih =>
    obtain ⟨q, hkq, hq⟩ := ih (by omega)
    rw [List.range_succ, List.foldl_append]
    simp only [List.foldl_cons, List.foldl_nil]
    have hperm := foldl_combStep_perm g (List.range k) (a, false)
    have hmax2 : ∀ y ∈ ((List.range k).foldl (combStep g) (a, false)).1, y ≤ M :=
      fun y hy => hmax y (hperm.mem_iff.mp hy)
    have hlen : ((List.range k).foldl (combStep g) (a, false)).1.length = a.length :=
      hperm.length_eq
    have := combStep_max_track g _ k q M hq hmax2 (by rw [hlen]; omega)
    exact ⟨_, by split_ifs <;> omega, this⟩

theorem combPass_max {α : Type} [LinearOrder α] (g : Nat) (hg : 1 ≤ g) (a : List α)
    (p : Nat) (M : α) (hp : a[p]? = some M) (hmax : ∀ y ∈ a, y ≤ M) :
    ∃ q, a.length ≤ q + g ∧ (combPass g a).1[q]? = some M := by
  obtain ⟨q, hkq, hq⟩ := foldl_combStep_max g hg a p M hp hmax (a.length - g) (le_refl _)
  exact ⟨q, by omega, hq⟩

/-- From a state `(h, f, a)` in which a largest entry sits at an index `q >= n - h` (or
at `n - 1`), the loop of `combsort11` ends with a largest entry at index `n - 1`. -/
theorem combsortLoop_max {α : Type} [LinearOrder α] (fuel : Nat) :
    ∀ (h : Nat) (f : Bool) (a : List α) (q : Nat) (M : α), a[q]? = some M →
      (∀ y ∈ a, y ≤ M) → (a.length ≤ q + h ∨ a.length ≤ q + 1) →
      ∀ r, combsortLoop fuel h f a = some r → r[a.length - 1]? = some M := by
  induction fuel with
  | zero =>
    intro h f a q M _ _ _ r hr
    simp [combsortLoop] at hr
  | succ fuel ih =>
    intro h f a q M hq hmax hqh r hr
    have hql := (List.getElem?_eq_some_iff.mp hq).1
    unfold combsortLoop at hr
    split at hr
    · dsimp only at hr
      have hpos : 2 ≤ h → 1 ≤ (if SHRINK h = 9 ∨ SHRINK h = 10 then 11 else SHRINK h) :=
        SHRINK_pos h
      have hz : h ≤ 1 → (if SHRINK h = 9 ∨ SHRINK h = 10 then 11 else SHRINK h) = 0 := by
        intro h1
        unfold SHRINK
        split <;> omega
      generalize (if SHRINK h = 9 ∨ SHRINK h = 10 then 11 else SHRINK h) = g at hr hpos hz
      have hmax2 : ∀ y ∈ (combPass g a).1, y ≤ M :=
        fun y hy => hmax y ((combPass_perm g a).mem_iff.mp hy)
      have hlen : (combPass g a).1.length = a.length := (combPass_perm g a).length_eq
      by_cases h2 : 2 ≤ h
      · obtain ⟨q2, hq2, hget⟩ := combPass_max g (hpos h2) a q M hq hmax
        have := ih g (combPass g a).2 (combPass g a).1 q2 M hget hmax2
          (Or.inl (by rw [hlen]; exact hq2)) r hr
        rw [hlen] at this
        exact this
      · have hg0 := hz (by omega)
        subst hg0
        rw [combPass_zero] at hr
        exact ih 0 false a q M hq hmax (Or.inr (by omega)) r hr
    · rename_i hc
      have hr2 : a = r := Option.some.inj hr
      subst hr2
      have hq1 : q = a.length - 1 := by
        have : ¬ h > 1 := fun h1 => hc (Or.inl h1)
        omega
      rw [← hq1]
      exact hq

theorem combsort11_min_max {α : Type} [LinearOrder α] (f0 : Bool) (a r : List α)
    (hn : 1 ≤ a.length) (hr : combsort11 f0 a = some r) :
    ∃ m M, r[0]? = some m ∧ r[a.length - 1]? = some M ∧ m ∈ a ∧ M ∈ a ∧
      (∀ x ∈ a, m ≤ x) ∧ (∀ x ∈ a, x ≤ M) := by
  have hpos : 0 < a.length := by omega
  have hm := List.minimum_of_length_pos_mem hpos
  have hM := List.maximum_of_length_pos_mem hpos
  obtain ⟨p, hp⟩ := List.mem_iff_getElem?.mp hm
  obtain ⟨q, hq⟩ := List.mem_iff_getElem?.mp hM
  have hpl := (List.getElem?_eq_some_iff.mp hp).1
  have hmin : ∀ x ∈ a, List.minimum_of_length_pos hpos ≤ x :=
    fun x hx => List.minimum_of_length_pos_le_of_mem hx hpos
  have hmax : ∀ x ∈ a, x ≤ List.maximum_of_length_pos hpos :=
    fun x hx => List.le_maximum_of_length_pos_of_mem hx hpos
  unfold combsort11 at hr
  exact ⟨_, _, combsortLoop_min _ _ _ _ p _ hp hmin (by omega) r hr,
    combsortLoop_max _ _ _ _ q _ hq hmax (Or.inl (by omega)) r hr, hm, hM, hmin, hmax⟩

/-! ## Claims about the extreme samples -/

/-- C13: for every array `s` of `n >= 10` samples, the field `min` of the context stored by
`cheap_stats_new` (the entry `a1[0]` after `combsort11`) is the minimum of the samples:
it is one of them and it is `<=` every one of them. -/
theorem cheap_stats_new_min_is_minimum {K : Type} [LinearOrderedField K] (L : Libm K) (f0 : Bool)
    (s : List K) (hn : 10 ≤ s.length) :
    ∃ ctx, cheap_stats_new L f0 (some s) true true true true = some (0, some ctx) ∧
      ctx.a1[0]? = some ctx.min ∧ ctx.min ∈ s ∧ ∀ x ∈ s, ctx.min ≤ x := by
  obtain ⟨ctx, hnew, hsort, -, -, -, -, -, h0, -⟩ := cheap_stats_new_facts L f0 s hn
  obtain ⟨m, M, hm, -, hmem, -, hle, -⟩ := combsort11_min_max f0 s ctx.a1 (by omega) hsort
  have : ctx.min = m := Option.some.inj (h0.symm.trans hm)
  rw [← this] at hmem hle
  exact ⟨ctx, hnew, h0, hmem, hle⟩

/-- Witness of C13 at the samples `[1, 2, 3, 6, 4, 7, 8, 9, 10, 5]` over the reals. -/
theorem cheap_stats_new_min_is_minimum_witness :
    10 ≤ (unsortedTen ℝ).length ∧
    ∃ ctx, cheap_stats_new (Libm.mk Real.sqrt (fun x y => x ^ y) Real.exp) false
        (some (unsortedTen ℝ)) true true true true = some (0, some ctx) ∧
      ctx.a1[0]? = some ctx.min ∧ ctx.min ∈ unsortedTen ℝ ∧
      ∀ x ∈ unsortedTen ℝ, ctx.min ≤ x :=
  ⟨by simp [unsortedTen],
    cheap_stats_new_min_is_minimum _ false (unsortedTen ℝ) (by simp [unsortedTen])⟩

/-- C14: for every array `s` of `n >= 10` samples, the field `max` of the context stored by
`cheap_stats_new` (the entry `a1[n - 1]` after `combsort11`) is the maximum of the
samples: it is one of them and it is `>=` every one of them. -/
theorem cheap_stats_new_max_is_maximum {K : Type} [LinearOrderedField K] (L : Libm K) (f0 : Bool)
    (s : List K) (hn : 10 ≤ s.length) :
    ∃ ctx, cheap_stats_new L f0 (some s) true true true true = some (0, some ctx) ∧
      ctx.a1[s.length - 1]? = some ctx.max ∧ ctx.max ∈ s ∧ ∀ x ∈ s, x ≤ ctx.max := by
  obtain ⟨ctx, hnew, hsort, -, -, -, -, -, -, h1, -⟩ := cheap_stats_new_facts L f0 s hn
  obtain ⟨m, M, -, hM, -, hmem, -, hle⟩ := combsort11_min_max f0 s ctx.a1 (by omega) hsort
  have : ctx.max = M := Option.some.inj (h1.symm.trans hM)
  rw [← this] at hmem hle
  exact ⟨ctx, hnew, h1, hmem, hle⟩

/-- Witness of C14 at the samples `[1, 2, 3, 6, 4, 7, 8, 9, 10, 5]` over the reals. -/
theorem cheap_stats_new_max_is_maximum_witness :
    10 ≤ (unsortedTen ℝ).length ∧
    ∃ ctx, cheap_stats_new (Libm.mk Real.sqrt (fun x y => x ^ y) Real.exp) false
        (some (unsortedTen ℝ)) true true true true = some (0, some ctx) ∧
      ctx.a1[(unsortedTen ℝ).length - 1]? = some ctx.max ∧ ctx.max ∈ unsortedTen ℝ ∧
      ∀ x ∈ unsortedTen ℝ, x ≤ ctx.max :=
  ⟨by simp [unsortedTen],
    cheap_stats_new_max_is_maximum _ false (unsortedTen ℝ) (by simp [unsortedTen])⟩

/-! ## The gap on the machine types -/

/-- While `10 * h` fits an `int`, the product in `SHRINK(h)` is exact, and the machine
update of the gap yields a gap in `0 .. h`, below `h` when `h >= 1`. -/
theorem gapStep32_range (h : Int) (h0 : 0 ≤ h) (hB : h ≤ 214748364) :
    int32 (h * 10) = h * 10 ∧ 0 ≤ gapStep32 h ∧ gapStep32 h ≤ h ∧
      (1 ≤ h → gapStep32 h < h) := by
  have hprod : int32 (h * 10) = h * 10 := by
    unfold int32
    omega
  have hdiv : Int.tdiv (h * 10) 13 = h * 10 / 13 :=
    Int.tdiv_eq_ediv (by omega) (by decide)
  refine ⟨hprod, ?_⟩
  unfold gapStep32
  simp only [hprod, hdiv]
  split <;> omega

/-- While `10 * h` fits an `int`, the machine update of the gap is the update of the
embedded loop. -/
theorem gapStep32_eq (h : Nat) (hB : h ≤ 214748364) :
    gapStep32 (h : Int)
      = ((if SHRINK h = 9 ∨ SHRINK h = 10 then 11 else SHRINK h : Nat) : Int) := by
  have hprod : int32 ((h : Int) * 10) = (h : Int) * 10 := by
    unfold int32
    omega
  have hdiv : Int.tdiv ((h : Int) * 10) 13 = (h : Int) * 10 / 13 :=
    Int.tdiv_eq_ediv (by omega) (by decide)
  unfold gapStep32 SHRINK
  simp only [hprod, hdiv]
  split <;> split <;> omega

theorem gap32_range (k : Nat) :
    ∀ h : Int, 0 ≤ h → h ≤ 214748364 →
      0 ≤ gap32 h k ∧ gap32 h k ≤ h ∧ (1 ≤ h → gap32 h k < h) ∧
      int32 (gap32 h k * 10) = gap32 h k * 10 := by
  induction k with
  | zero =>
    intro h h0 hB
    obtain ⟨-, p0, p1, p2⟩ := gapStep32_range h h0 hB
    rw [gap32]
    exact ⟨p0, p1, p2, (gapStep32_range _ p0 (by omega)).1⟩
  | succ k ih =>
    intro h h0 hB
    obtain ⟨-, p0, p1, p2⟩ := gapStep32_range h h0 hB
    obtain ⟨q0, q1, q2, q3⟩ := ih (gapStep32 h) p0 (by omega)
    rw [gap32]
    refine ⟨q0, by omega, ?_, q3⟩
    intro h1
    have := p2 h1
    omega

/-- The gaps recorded by `combsortTrace` are the values of the machine variable `h`, as
long as `10 * h` fits an `int` on entry. -/
theorem combsortTrace_gap32 {α : Type} [LinearOrder α] (fuel : Nat) :
    ∀ (h : Nat) (f : Bool) (a : List α) (tr : List (Nat × Bool)) (r : List α),
      combsortTrace fuel h f a = some (tr, r) → h ≤ 214748364 →
      ∀ (k : Nat) (e : Nat × Bool), tr[k]? = some e → (e.1 : Int) = gap32 (h : Int) k := by
  induction fuel with
  | zero =>
    intro h f a tr r htr
    simp [combsortTrace] at htr
  | succ fuel ih =>
    intro h f a tr r htr hB k e he
    unfold combsortTrace at htr
    split at htr
    · dsimp only at htr
      have hstep := gapStep32_eq h hB
      have hle : (if SHRINK h = 9 ∨ SHRINK h = 10 then 11 else SHRINK h) ≤ h := by
        unfold SHRINK
        split <;> omega
      generalize (if SHRINK h = 9 ∨ SHRINK h = 10 then 11 else SHRINK h) = g
        at htr hstep hle
      cases hrec : combsortTrace fuel g (combPass g a).2 (combPass g a).1 with
      | none => simp [hrec] at htr
      | some res =>
        obtain ⟨tr2, r2⟩ := res
        simp only [hrec, Option.map_some', Option.some.injEq, Prod.mk.injEq] at htr
        obtain ⟨htr1, -⟩ := htr
        subst htr1
        cases k with
        | zero =>
          simp only [List.getElem?_cons_zero, Option.some.injEq] at he
          subst he
          rw [gap32, hstep]
        | succ k =>
          simp only [List.getElem?_cons_succ] at he
          have := ih g _ _ tr2 r2 hrec (by omega) k e he
          rw [gap32, hstep]
          exact this
    · simp only [Option.some.injEq, Prod.mk.injEq] at htr
      obtain ⟨htr1, -⟩ := htr
      subst htr1
      simp at he

/-- C20 (as stated, refuted): for an array of `n = 214748365` entries the value `h = n`
fits an `int` but the product `h * 10` of `SHRINK(h)` does not: in the first pass the gap
is `h = -165191049`, which is negative, the unsigned bound `n - h` is `379939414`, more
than `n`, and at `i = 0` the access `a[i + h]` has a negative index. -/
theorem combsort11_gap_negative_at_large_n :
    (List.replicate 214748365 (0 : ℚ)).length = 214748365 ∧
    int32 214748365 = 214748365 ∧
    int32 (214748365 * 10) = -2147483646 ∧
    gap32 (int32 214748365) 0 = -165191049 ∧
    ¬ 0 ≤ gap32 (int32 214748365) 0 ∧
    passBound64 214748365 (gap32 (int32 214748365) 0) = 379939414 ∧
    (0 : Int) < passBound64 214748365 (gap32 (int32 214748365) 0) ∧
    (0 : Int) + gap32 (int32 214748365) 0 < 0 := by
  have h1 : int32 214748365 = 214748365 := by decide
  have h2 : int32 (214748365 * 10) = -2147483646 := by decide
  have h3 : gap32 (int32 214748365) 0 = -165191049 := by
    rw [h1, gap32, gapStep32]
    simp only [h2]
    decide
  refine ⟨List.length_replicate _ _, h1, h2, h3, ?_, ?_, ?_, ?_⟩
  · rw [h3]
    decide
  · rw [h3]
    decide
  · rw [h3]
    decide
  · rw [h3]
    decide

/-- C20 (amended): on every array of length `n` with `10 <= n <= 214748364` (so that
`h * 10` stays inside a 32-bit `int`), `h = n` and every product `h * 10` are exact, and
in every pass of `combsort11` the `int` gap `h` (after the shrink and the snap to 11)
satisfies `0 <= h < n`; the unsigned bound `n - h` does not wrap, and for every `i` of the
pass (`0 <= i < n - h`) the accesses `a[i]` and `a[i + h]` have indices in `0 .. n-1`.  The
passes of the embedded sorter use exactly these gaps. -/
theorem combsort11_gap_in_int_range {α : Type} [LinearOrder α] (f0 : Bool) (a : List α)
    (hn : 10 ≤ a.length) (hB : a.length ≤ 214748364) :
    int32 (a.length : Int) = (a.length : Int) ∧
    int32 ((a.length : Int) * 10) = (a.length : Int) * 10 ∧
    (∀ k : Nat,
      0 ≤ gap32 (int32 (a.length : Int)) k ∧
      gap32 (int32 (a.length : Int)) k < (a.length : Int) ∧
      int32 (gap32 (int32 (a.length : Int)) k * 10)
        = gap32 (int32 (a.length : Int)) k * 10 ∧
      passBound64 a.length (gap32 (int32 (a.length : Int)) k)
        = (a.length : Int) - gap32 (int32 (a.length : Int)) k ∧
      ∀ i : Int, 0 ≤ i → i < passBound64 a.length (gap32 (int32 (a.length : Int)) k) →
        i < (a.length : Int) ∧ 0 ≤ i + gap32 (int32 (a.length : Int)) k ∧
        i + gap32 (int32 (a.length : Int)) k < (a.length : Int)) ∧
    ∃ tr r, combsortTrace (a.length + 2) a.length f0 a = some (tr, r) ∧
      combsort11 f0 a = some r ∧
      ∀ (k : Nat) (e : Nat × Bool), tr[k]? = some e →
        (e.1 : Int) = gap32 (int32 (a.length : Int)) k := by
  have hconv : int32 (a.length : Int) = (a.length : Int) := by
    unfold int32
    omega
  have hprod : int32 ((a.length : Int) * 10) = (a.length : Int) * 10 := by
    unfold int32
    omega
  rw [hconv]
  refine ⟨rfl, hprod, ?_, ?_⟩
  · intro k
    obtain ⟨q0, -, q2, q3⟩ := gap32_range k (a.length : Int) (by omega) (by omega)
    have hlt := q2 (by omega)
    have hbound : passBound64 a.length (gap32 (a.length : Int) k)
        = (a.length : Int) - gap32 (a.length : Int) k := by
      unfold passBound64
      omega
    refine ⟨q0, hlt, q3, hbound, ?_⟩
    intro i hi0 hi
    rw [hbound] at hi
    omega
  · obtain ⟨tr, r, e, hsort, -⟩ := combsort11_trace f0 a (by omega)
    exact ⟨tr, r, e, hsort, combsortTrace_gap32 _ _ _ _ tr r e hB⟩

/-- Witness of C20 (amended) at the array `[1, 2, 3, 6, 4, 7, 8, 9, 10, 5]` of rationals. -/
theorem combsort11_gap_in_int_range_witness :
    10 ≤ (unsortedTen ℚ).length ∧ (unsortedTen ℚ).length ≤ 214748364 ∧
    int32 ((unsortedTen ℚ).length : Int) = ((unsortedTen ℚ).length : Int) ∧
    int32 (((unsortedTen ℚ).length : Int) * 10) = ((unsortedTen ℚ).length : Int) * 10 ∧
    (∀ k : Nat,
      0 ≤ gap32 (int32 ((unsortedTen ℚ).length : Int)) k ∧
      gap32 (int32 ((unsortedTen ℚ).length : Int)) k < ((unsortedTen ℚ).length : Int) ∧
      int32 (gap32 (int32 ((unsortedTen ℚ).length : Int)) k * 10)
        = gap32 (int32 ((unsortedTen ℚ).length : Int)) k * 10 ∧
      passBound64 (unsortedTen ℚ).length (gap32 (int32 ((unsortedTen ℚ).length : Int)) k)
        = ((unsortedTen ℚ).length : Int) - gap32 (int32 ((unsortedTen ℚ).length : Int)) k ∧
      ∀ i : Int, 0 ≤ i →
        i < passBound64 (unsortedTen ℚ).length
            (gap32 (int32 ((unsortedTen ℚ).length : Int)) k) →
        i < ((unsortedTen ℚ).length : Int) ∧
        0 ≤ i + gap32 (int32 ((unsortedTen ℚ).length : Int)) k ∧
        i + gap32 (int32 ((unsortedTen ℚ).length : Int)) k
          < ((unsortedTen ℚ).length : Int)) ∧
    ∃ tr r, combsortTrace ((unsortedTen ℚ).length + 2) (unsortedTen ℚ).length false
        (unsortedTen ℚ) = some (tr, r) ∧
      combsort11 false (unsortedTen ℚ) = some r ∧
      ∀ (k : Nat) (e : Nat × Bool), tr[k]? = some e →
        (e.1 : Int) = gap32 (int32 ((unsortedTen ℚ).length : Int)) k :=
  ⟨by decide, by decide,
    combsort11_gap_in_int_range false (unsortedTen ℚ) (by decide) (by decide)⟩

end CheapStats
